import Mathlib

/-!
A shallow embedding of the `jvn::Graph` container from `src/Graph.h`.

Pointer-linked records are modelled as lists: a pointer to a vertex record is
its index in the graph's vertex list (`Option Nat`, `none` standing for
`nullptr`), and a pointer to an edge record is the pair (owning vertex index,
index in that vertex's edge list).  This is faithful because the container is
append-only: no operation removes or reorders records, so indices are stable
exactly like the pointers in the source.

The compile-time configuration flags `Directed` and `Weighted` of the C++
template become `Bool` parameters of the operations, and the injected equality
predicate `VerEq` becomes an explicit function parameter `veq`.
-/

set_option autoImplicit false
set_option linter.unusedSectionVars false
set_option linter.unusedVariables false

namespace jvn

variable {V : Type} [Inhabited V]

/-- Edge record (`EdgeNodeConditional`): an `int` weight and the destination
vertex record.  The unweighted specialisation of the C++ struct has no weight
field; here the field is kept and is always `0` for unweighted graphs, because
`setEdgeWeight<false>` discards the supplied weight and the field initialiser
is `0`.  The `next` pointer is the enclosing list structure. -/
structure EdgeNode where
  weight : Int
  dest : Nat
deriving DecidableEq, Repr

/-- Vertex record (`VertexNode`): the stored value and the head of the edge
list.  The `next` pointer is the enclosing list structure. -/
structure VertexNode (V : Type) where
  vertex : V
  edge_list : List EdgeNode
deriving DecidableEq, Repr

/-- The graph: head of the vertex-record list and the running vertex count
`m_size` (the allocator members hold no observable state). -/
structure Graph (V : Type) where
  vertex_node_list : List (VertexNode V)
  m_size : Nat
deriving DecidableEq, Repr

/-- The edge cursor `EdgeIter`: a (source-vertex record, edge record) pointer
pair, each pointer an `Option` index, `none` = `nullptr`. -/
structure EdgeIter where
  m_vertex_node : Option Nat
  m_edge_node : Option Nat
deriving DecidableEq, Repr

/-- The two `std::runtime_error` conditions thrown by the iterator layer. -/
inductive IterErr where
  | endOfIteration
  | invalidState
deriving DecidableEq, Repr

/-- Default-constructed graph: empty list, count `0`. -/
def emptyGraph : Graph V := ⟨[], 0⟩

/-- The value stored at vertex index `i` (callers only use live indices). -/
def valAt (g : Graph V) (i : Nat) : V :=
  ((g.vertex_node_list[i]?).map VertexNode.vertex).getD default

/-- The edge list of the vertex record at index `i`. -/
def edgeListAt (g : Graph V) (i : Nat) : List EdgeNode :=
  ((g.vertex_node_list[i]?).map VertexNode.edge_list).getD []

/-- `setEdgeWeight<Weighted>`: the weight stored in a freshly constructed edge
record.  The weighted specialisation writes the supplied weight; the
unweighted one is a no-op, leaving the initialiser `0`. -/
def setEdgeWeight (Weighted : Bool) (weight : Int) : Int :=
  if Weighted then weight else 0

/-- The common shape of the two linear scans (`findVertexHelper`'s and
`findEdgeHelper`'s loops): walk the list while the current record does not
satisfy `p` and a `next` record exists; return the index where the walk
stops (first hit, or else the last index).  Callers pass nonempty lists. -/
def scanAux {α : Type} (p : α → Bool) : List α → Nat
  | [] => 0
  | [_] => 0
  | x :: y :: rest => if p x then 0 else scanAux p (y :: rest) + 1

/-- Body of `findVertexHelper`'s scan, as an index into the vertex list.
The loop compares with `veq(vertex, search->vertex)` in that argument order. -/
def findVertexHelperAux (veq : V → V → Bool) (vertex : V) (l : List (VertexNode V)) : Nat :=
  scanAux (fun x => veq vertex x.vertex) l

/-- `findVertexHelper`: `nullptr` on an empty store, otherwise the node where
the scan stopped (the first node equal to `vertex` under the predicate, or
else the last node). -/
def findVertexHelper (veq : V → V → Bool) (g : Graph V) (vertex : V) : Option Nat :=
  if g.vertex_node_list.isEmpty then none
  else some (findVertexHelperAux veq vertex g.vertex_node_list)

/-- `addVertex` (single value): first-record fast path on an empty store;
otherwise scan, return the found record with `inserted = false`, or hang a new
record off the stop node (`search->next = ...`) and bump `m_size`.  The stop
node is the tail whenever the equality check fails, so the append is modelled
as `take (search+1) ++ [new]`, which is literally what assigning
`search->next` does. -/
def addVertex (veq : V → V → Bool) (g : Graph V) (vertex : V) : (Nat × Bool) × Graph V :=
  if g.vertex_node_list.isEmpty then
    ((0, true), ⟨[⟨vertex, []⟩], g.m_size + 1⟩)
  else
    let search := findVertexHelperAux veq vertex g.vertex_node_list
    match g.vertex_node_list[search]? with
    | some node =>
      if veq node.vertex vertex then
        ((search, false), g)
      else
        ((search + 1, true),
         ⟨g.vertex_node_list.take (search + 1) ++ [⟨vertex, []⟩], g.m_size + 1⟩)
    | none => ((search, false), g)  -- unreachable: the scan stops on a live node

/-- Batch `addVertex` over an initializer list: the single-value operation
applied to each element in order. -/
def addVertexList (veq : V → V → Bool) (g : Graph V) (l : List V) : Graph V :=
  l.foldl (fun acc v => (addVertex veq acc v).2) g

/-- `findVertex`: run the helper, then accept the stop node only if it is
equal to `vertex` under the predicate (the check is `veq(search->vertex, vertex)`,
arguments in that order); otherwise the end cursor. -/
def findVertex (veq : V → V → Bool) (g : Graph V) (vertex : V) : Option Nat :=
  match findVertexHelper veq g vertex with
  | none => none
  | some search =>
    match g.vertex_node_list[search]? with
    | some node => if veq node.vertex vertex then some search else none
    | none => none  -- unreachable: the scan stops on a live node

/-- Body of `findEdgeHelper`'s scan: destination identity is pointer equality
(`search->vertex_node != to`), i.e. index equality here. -/
def findEdgeHelperAux (to_ : Nat) (l : List EdgeNode) : Nat :=
  scanAux (fun e => e.dest == to_) l

/-- `findEdgeHelper`: `nullptr` if either endpoint pointer is null or the edge
list is empty, otherwise the edge record where the scan stopped (first record
with destination `to`, or else the last record). -/
def findEdgeHelper (g : Graph V) (from_ to_ : Option Nat) : Option Nat :=
  match from_, to_ with
  | some f, some t =>
    match g.vertex_node_list[f]? with
    | some node =>
      if node.edge_list.isEmpty then none
      else some (findEdgeHelperAux t node.edge_list)
    | none => none  -- unreachable: callers pass live vertex records
  | _, _ => none

/-- `addEdgeHelper`: first-record fast path on an empty edge list; otherwise
scan, return the found record with `inserted = false` and no mutation, or hang
a new record off the stop record (`edge_search->next = ...`).  As in
`addVertex`, the append is modelled as `take (edge_search+1) ++ [new]`. -/
def addEdgeHelper (Weighted : Bool) (g : Graph V) (from_ to_ : Nat) (weight : Int) :
    (EdgeIter × Bool) × Graph V :=
  match g.vertex_node_list[from_]? with
  | some node =>
    if node.edge_list.isEmpty then
      ((⟨some from_, some 0⟩, true),
       ⟨g.vertex_node_list.set from_
          ⟨node.vertex, [⟨setEdgeWeight Weighted weight, to_⟩]⟩, g.m_size⟩)
    else
      let edge_search := findEdgeHelperAux to_ node.edge_list
      match node.edge_list[edge_search]? with
      | some e =>
        if e.dest == to_ then
          ((⟨some from_, some edge_search⟩, false), g)
        else
          ((⟨some from_, some (edge_search + 1)⟩, true),
           ⟨g.vertex_node_list.set from_
              ⟨node.vertex,
               node.edge_list.take (edge_search + 1) ++ [⟨setEdgeWeight Weighted weight, to_⟩]⟩,
            g.m_size⟩)
      | none => ((⟨none, none⟩, false), g)  -- unreachable: the scan stops on a live record
  | none => ((⟨none, none⟩, false), g)  -- unreachable: callers pass live vertex records

/-- `addEdgeCaller<false>` (the primary template, used for undirected graphs):
insert both endpoints, insert the mirror edge to→from first and discard its
result, then insert from→to and return that result.  The weight argument is
`std::intptr_t(std::get<last>(edge))`; for an unweighted graph that is the
destination value reinterpreted, which `setEdgeWeight<false>` then discards,
so passing the tuple's `Int` component is observationally identical. -/
def addEdgeCallerUndirected (Weighted : Bool) (veq : V → V → Bool) (g : Graph V)
    (efrom eto : V) (weight : Int) : (EdgeIter × Bool) × Graph V :=
  let r1 := addVertex veq g efrom
  let vertex_from_node := r1.1.1
  let r2 := addVertex veq r1.2 eto
  let vertex_to_node := r2.1.1
  let r3 := addEdgeHelper Weighted r2.2 vertex_to_node vertex_from_node weight
  addEdgeHelper Weighted r3.2 vertex_from_node vertex_to_node weight

/-- `addEdgeCaller<true>` (directed graphs): insert both endpoints, then a
single from→to edge record. -/
def addEdgeCallerDirected (Weighted : Bool) (veq : V → V → Bool) (g : Graph V)
    (efrom eto : V) (weight : Int) : (EdgeIter × Bool) × Graph V :=
  let r1 := addVertex veq g efrom
  let vertex_from_node := r1.1.1
  let r2 := addVertex veq r1.2 eto
  let vertex_to_node := r2.1.1
  addEdgeHelper Weighted r2.2 vertex_from_node vertex_to_node weight

/-- Public `addEdge(const edge_type&)`: dispatches on the `Directed` template
argument.  The edge tuple is `(from, to, weight)`; for unweighted graphs the
C++ tuple has no weight component and the `Int` here is ignored. -/
def addEdge (Directed Weighted : Bool) (veq : V → V → Bool) (g : Graph V)
    (edge : V × V × Int) : (EdgeIter × Bool) × Graph V :=
  if Directed then addEdgeCallerDirected Weighted veq g edge.1 edge.2.1 edge.2.2
  else addEdgeCallerUndirected Weighted veq g edge.1 edge.2.1 edge.2.2

/-- Batch `addEdge` over an initializer list. -/
def addEdgeList (Directed Weighted : Bool) (veq : V → V → Bool) (g : Graph V)
    (edges : List (V × V × Int)) : Graph V :=
  edges.foldl (fun acc e => (addEdge Directed Weighted veq acc e).2) g

/-- `edge_end()`: the (null, null) edge cursor. -/
def edgeEnd : EdgeIter := ⟨none, none⟩

/-- `findEdge`: resolve both endpoints by value, scan the source's edge list,
and reject the stop record unless its destination is `to`
(`edge_search != nullptr && edge_search->vertex_node != to` returns the end
cursor). -/
def findEdge (veq : V → V → Bool) (g : Graph V) (efrom eto : V) : EdgeIter :=
  let from_ := findVertex veq g efrom
  let to_ := findVertex veq g eto
  match findEdgeHelper g from_ to_ with
  | none => ⟨from_, none⟩
  | some s =>
    match from_ with
    | some f =>
      match (edgeListAt g f)[s]? with
      | some e => if (some e.dest) ≠ to_ then edgeEnd else ⟨from_, some s⟩
      | none => edgeEnd  -- unreachable
    | none => edgeEnd  -- unreachable: a non-null edge record implies a live source

/-- Pointer equality of edge cursors (`operator==` compares only
`m_edge_node`): two live edge records are the same pointer exactly when they
sit at the same position of the same vertex's list. -/
def edgeIterBeq (a b : EdgeIter) : Bool :=
  match a.m_edge_node, b.m_edge_node with
  | none, none => true
  | some i, some j => (a.m_vertex_node == b.m_vertex_node) && (i == j)
  | _, _ => false

/-- `begin()`: cursor on the list head, or the end cursor when empty. -/
def beginIter (g : Graph V) : Option Nat :=
  if g.vertex_node_list.isEmpty then none else some 0

/-- `VertexIter::operator++`: throws end-of-iteration at the sentinel,
otherwise moves to `next` (which is `none` when the node was the tail). -/
def vertexIterInc (g : Graph V) (it : Option Nat) : Except IterErr (Option Nat) :=
  match it with
  | none => .error .endOfIteration
  | some i => .ok (if i + 1 < g.vertex_node_list.length then some (i + 1) else none)

/-- `VertexIter::operator*`: throws invalid-state at the sentinel, otherwise
yields the stored value. -/
def vertexIterDeref (g : Graph V) (it : Option Nat) : Except IterErr V :=
  match it with
  | none => .error .invalidState
  | some i => .ok (valAt g i)

/-- `EdgeIter::getTuple`: materialise `(source value, destination value,
weight)`; the unweighted specialisation omits the weight component, whose
stored value is always `0` in this model. -/
def getTuple (g : Graph V) (f s : Nat) : V × V × Int :=
  let e := ((edgeListAt g f)[s]?).getD ⟨0, 0⟩
  (valAt g f, valAt g e.dest, e.weight)

/-- `EdgeIter::operator++`: throws end-of-iteration when the edge-record half
is the sentinel, otherwise moves it to `next`. -/
def edgeIterInc (g : Graph V) (it : EdgeIter) : Except IterErr EdgeIter :=
  match it.m_edge_node with
  | none => .error .endOfIteration
  | some s =>
    .ok ⟨it.m_vertex_node,
         match it.m_vertex_node with
         | some f => if s + 1 < (edgeListAt g f).length then some (s + 1) else none
         | none => none⟩  -- unreachable: a live edge record implies a live source

/-- `EdgeIter::operator*`: throws invalid-state when the edge-record half is
the sentinel, otherwise materialises the tuple. -/
def edgeIterDeref (g : Graph V) (it : EdgeIter) : Except IterErr (V × V × Int) :=
  match it.m_edge_node with
  | none => .error .invalidState
  | some s =>
    match it.m_vertex_node with
    | some f => .ok (getTuple g f s)
    | none => .ok (default, default, 0)  -- unreachable: a live edge record implies a live source

/-- `VertexIter::getEdges`: note the missing sentinel check in the source — it
reads `m_vertex_node->edge_list` unconditionally, so on the end cursor it
dereferences a null pointer (undefined behavior); the embedding is partial
there (`none`) rather than raising either iterator error. -/
def getEdges (g : Graph V) (it : Option Nat) : Option EdgeIter :=
  match it with
  | none => none
  | some i => some ⟨some i, if (edgeListAt g i).isEmpty then none else some 0⟩

/-- `destroyGraph`: release everything and reset to the empty state
(`m_size = 0`, head `nullptr`); deallocation itself is unobservable. -/
def destroyGraph (g : Graph V) : Graph V :=
  let _ := g
  ⟨[], 0⟩

/-- `operator=(const Graph&)` (also the body of the copy constructor): tear
down the destination, then walk the source's vertices and each vertex's edges,
re-inserting every dereferenced edge tuple through the public `addEdge`. -/
def assignCopy (Directed Weighted : Bool) (veq : V → V → Bool) (g src : Graph V) : Graph V :=
  let g0 := destroyGraph g
  src.vertex_node_list.foldl
    (fun acc vn =>
      vn.edge_list.foldl
        (fun acc2 en =>
          (addEdge Directed Weighted veq acc2 (vn.vertex, valAt src en.dest, en.weight)).2)
        acc)
    g0

/-- `Graph(std::initializer_list<edge_type>)`: default-construct then insert
every edge in order. -/
def graphFromEdges (Directed Weighted : Bool) (veq : V → V → Bool)
    (edges : List (V × V × Int)) : Graph V :=
  edges.foldl (fun acc e => (addEdge Directed Weighted veq acc e).2) (emptyGraph : Graph V)

/-- Observation: the list of stored vertex values, in insertion order. -/
def vals (g : Graph V) : List V := g.vertex_node_list.map VertexNode.vertex

/-- Observation: every edge record, materialised exactly as a full edge-cursor
sweep dereferences it: `(source value, destination value, stored weight)`. -/
def triples (g : Graph V) : List (V × V × Int) :=
  g.vertex_node_list.flatMap
    (fun vn => vn.edge_list.map (fun en => (vn.vertex, valAt g en.dest, en.weight)))

/-- Observation: the total number of edge records stored in the graph. -/
def totalEdgeRecords (g : Graph V) : Nat :=
  (g.vertex_node_list.map (fun vn => vn.edge_list.length)).sum

/-- A weight `u` such that the ordered value pair `(a, b)` carries an edge
record with weight `u`. -/
def PairMem (g : Graph V) (a b : V) : Prop :=
  ∃ u : Int, (a, b, u) ∈ triples g

/-- Structural well-formedness: every destination index is live, no two vertex
records hold the same value, and no vertex's list has two records with the
same destination.  Every graph reachable through the public interface
satisfies this. -/
structure WF (g : Graph V) : Prop where
  dest_lt : ∀ vn ∈ g.vertex_node_list, ∀ en ∈ vn.edge_list,
    en.dest < g.vertex_node_list.length
  vals_nodup : (vals g).Nodup
  edges_nodup : ∀ vn ∈ g.vertex_node_list, (vn.edge_list.map EdgeNode.dest).Nodup

/-- Mirror-closure of an undirected graph's edge records: every record `i → j`
of weight `w` has a companion record `j → i` of the same weight. -/
def Mirrored (g : Graph V) : Prop :=
  ∀ i, i < g.vertex_node_list.length → ∀ en ∈ edgeListAt g i,
    ∃ en' ∈ edgeListAt g en.dest, en'.dest = i ∧ en'.weight = en.weight


/-! ### Lemmas about the linear scans -/

theorem scanAux_lt {α : Type} (p : α → Bool) :
    ∀ (l : List α), l ≠ [] → scanAux p l < l.length := by
  intro l
  induction l with
  | nil => intro h; exact absurd rfl h
  | cons x xs ih =>
    intro _
    cases xs with
    | nil => simp [scanAux]
    | cons y rest =>
      simp only [scanAux]
      by_cases hp : p x
      · simp [hp]
      · have := ih (by simp)
        rw [if_neg hp]
        simp only [List.length_cons] at this ⊢
        omega

theorem scanAux_first {α : Type} (p : α → Bool) :
    ∀ (l : List α) (j : Nat), j < scanAux p l → ∃ x, l[j]? = some x ∧ p x = false := by
  intro l
  induction l with
  | nil => intro j hj; simp [scanAux] at hj
  | cons x xs ih =>
    intro j hj
    cases xs with
    | nil => simp [scanAux] at hj
    | cons y rest =>
      simp only [scanAux] at hj
      by_cases hp : p x
      · rw [if_pos hp] at hj; omega
      · rw [if_neg hp] at hj
        cases j with
        | zero => exact ⟨x, rfl, by simpa using hp⟩
        | succ k =>
          have hk := ih k (by omega)
          simpa using hk

theorem scanAux_found {α : Type} (p : α → Bool) :
    ∀ (l : List α), l.any p = true → ∃ x, l[scanAux p l]? = some x ∧ p x = true := by
  intro l
  induction l with
  | nil => simp
  | cons x xs ih =>
    intro h
    cases xs with
    | nil =>
      refine ⟨x, by simp [scanAux], ?_⟩
      simpa using h
    | cons y rest =>
      simp only [scanAux]
      by_cases hp : p x
      · exact ⟨x, by rw [if_pos hp]; rfl, hp⟩
      · rw [if_neg hp]
        have h' : (y :: rest).any p = true := by
          rw [List.any_cons, Bool.or_eq_true] at h
          rcases h with h | h
          · exact absurd h hp
          · exact h
        obtain ⟨z, hz, hpz⟩ := ih h'
        exact ⟨z, by simpa using hz, hpz⟩

theorem scanAux_not_found {α : Type} (p : α → Bool) :
    ∀ (l : List α), l.any p = false → scanAux p l = l.length - 1 := by
  intro l
  induction l with
  | nil => intro _; simp [scanAux]
  | cons x xs ih =>
    intro h
    simp only [List.any_cons, Bool.or_eq_false_iff] at h
    cases xs with
    | nil => simp [scanAux]
    | cons y rest =>
      simp only [scanAux]
      rw [if_neg (by simp [h.1])]
      have := ih h.2
      simp only [List.length_cons] at this ⊢
      omega

/-! ### Characterisation of `addVertex` under a symmetric predicate -/

theorem addVertex_mem {veq : V → V → Bool} {g : Graph V} {v : V}
    (hsym : ∀ a b, veq a b = veq b a)
    (h : g.vertex_node_list.any (fun x => veq v x.vertex) = true) :
    addVertex veq g v = ((findVertexHelperAux veq v g.vertex_node_list, false), g) := by
  obtain ⟨node, hnode, hpv⟩ := scanAux_found (fun x : VertexNode V => veq v x.vertex) _ h
  have hne : ¬ g.vertex_node_list.isEmpty = true := by
    rcases hl : g.vertex_node_list with _ | ⟨a, l⟩
    · rw [hl] at h; simp at h
    · simp
  rw [addVertex, if_neg hne]
  simp only [findVertexHelperAux]
  rw [hnode]
  simp [hsym node.vertex v, hpv]

theorem addVertex_not_mem {veq : V → V → Bool} {g : Graph V} {v : V}
    (hsym : ∀ a b, veq a b = veq b a)
    (h : g.vertex_node_list.any (fun x => veq v x.vertex) = false) :
    addVertex veq g v = ((g.vertex_node_list.length, true),
      ⟨g.vertex_node_list ++ [⟨v, []⟩], g.m_size + 1⟩) := by
  by_cases hE : g.vertex_node_list.isEmpty
  · have hl : g.vertex_node_list = [] := List.isEmpty_iff.mp hE
    rw [addVertex, if_pos hE]
    simp [hl]
  · have hne : g.vertex_node_list ≠ [] := by simpa [List.isEmpty_iff] using hE
    have hs := scanAux_not_found (fun x => veq v x.vertex) g.vertex_node_list h
    have hlt := scanAux_lt (fun x => veq v x.vertex) g.vertex_node_list hne
    obtain ⟨node, hnode⟩ : ∃ x,
        g.vertex_node_list[scanAux (fun x => veq v x.vertex) g.vertex_node_list]? = some x :=
      ⟨_, List.getElem?_eq_getElem hlt⟩
    have hmem : node ∈ g.vertex_node_list := List.getElem?_mem hnode
    have hfail : veq node.vertex v = false := by
      have h1 := List.any_eq_false.mp h node hmem
      simp only at h1
      rw [hsym]
      exact Bool.eq_false_iff.mpr h1
    rw [addVertex, if_neg hE]
    simp only [findVertexHelperAux]
    rw [hnode]
    simp only [hfail, Bool.false_eq_true, if_false]
    have hpos : 0 < g.vertex_node_list.length := List.length_pos.mpr hne
    have hlen : scanAux (fun x => veq v x.vertex) g.vertex_node_list + 1 =
        g.vertex_node_list.length := by omega
    rw [hlen, List.take_length]

/-! ### The equality predicate as a decision procedure for equality -/

theorem hsym_of_heq {veq : V → V → Bool} (heq : ∀ a b, veq a b = true ↔ a = b) :
    ∀ a b, veq a b = veq b a := by
  intro a b
  by_cases hab : a = b
  · subst hab; rfl
  · have h1 : veq a b = false := by
      rw [Bool.eq_false_iff]; intro hc; exact hab ((heq a b).mp hc)
    have h2 : veq b a = false := by
      rw [Bool.eq_false_iff]; intro hc; exact hab ((heq b a).mp hc).symm
    rw [h1, h2]

theorem any_veq_eq_mem {veq : V → V → Bool} (heq : ∀ a b, veq a b = true ↔ a = b)
    (g : Graph V) (v : V) :
    (g.vertex_node_list.any (fun x => veq v x.vertex)) = true ↔ v ∈ vals g := by
  rw [List.any_eq_true]
  constructor
  · rintro ⟨x, hx, hvx⟩
    rw [vals, List.mem_map]
    exact ⟨x, hx, ((heq _ _).mp hvx).symm⟩
  · intro hv
    rw [vals, List.mem_map] at hv
    obtain ⟨x, hx, hvx⟩ := hv
    exact ⟨x, hx, (heq _ _).mpr hvx.symm⟩

theorem addVertex_spec_mem {veq : V → V → Bool} (heq : ∀ a b, veq a b = true ↔ a = b)
    {g : Graph V} {v : V} (h : v ∈ vals g) :
    ∃ i, addVertex veq g v = ((i, false), g) ∧
      (vals g)[i]? = some v ∧ ∀ j, j < i → (vals g)[j]? ≠ some v := by
  have hs := hsym_of_heq heq
  have hany : (g.vertex_node_list.any (fun x => veq v x.vertex)) = true :=
    (any_veq_eq_mem heq g v).mpr h
  rw [addVertex_mem hs hany]
  refine ⟨_, rfl, ?_, ?_⟩
  · obtain ⟨node, hnode, hpv⟩ := scanAux_found (fun x : VertexNode V => veq v x.vertex) _ hany
    rw [vals, List.getElem?_map, findVertexHelperAux, hnode]
    simp [((heq _ _).mp hpv).symm]
  · intro j hj hjv
    obtain ⟨x, hx, hpx⟩ := scanAux_first (fun x : VertexNode V => veq v x.vertex) _ j hj
    rw [vals, List.getElem?_map, hx] at hjv
    simp only [Option.map_some', Option.some_inj] at hjv
    have : veq v x.vertex = true := (heq _ _).mpr hjv.symm
    rw [this] at hpx
    exact Bool.true_eq_false.mp hpx

theorem addVertex_spec_not_mem {veq : V → V → Bool} (heq : ∀ a b, veq a b = true ↔ a = b)
    {g : Graph V} {v : V} (h : v ∉ vals g) :
    addVertex veq g v = ((g.vertex_node_list.length, true),
      ⟨g.vertex_node_list ++ [⟨v, []⟩], g.m_size + 1⟩) := by
  have hs := hsym_of_heq heq
  refine addVertex_not_mem hs (Bool.eq_false_iff.mpr ?_)
  intro hc
  exact h ((any_veq_eq_mem heq g v).mp hc)

/-! ### Characterisation of `addEdgeHelper` -/

theorem addEdgeHelper_not_mem {W : Bool} {g : Graph V} {f t : Nat} {w : Int}
    {node : VertexNode V} (hf : g.vertex_node_list[f]? = some node)
    (hm : ∀ e ∈ node.edge_list, e.dest ≠ t) :
    addEdgeHelper W g f t w =
      ((⟨some f, some node.edge_list.length⟩, true),
       ⟨g.vertex_node_list.set f ⟨node.vertex, node.edge_list ++ [⟨setEdgeWeight W w, t⟩]⟩,
        g.m_size⟩) := by
  have hany : node.edge_list.any (fun e => e.dest == t) = false := by
    rw [List.any_eq_false]
    intro e he hc
    exact hm e he (by simpa using hc)
  rcases hEL : node.edge_list with _ | ⟨e0, rest⟩
  · simp [addEdgeHelper, hf, hEL]
  · rw [hEL] at hany
    have hne : e0 :: rest ≠ [] := by simp
    have hscan := scanAux_not_found (fun e : EdgeNode => e.dest == t) _ hany
    have hlt := scanAux_lt (fun e : EdgeNode => e.dest == t) _ hne
    obtain ⟨elast, helast⟩ : ∃ x,
        (e0 :: rest)[scanAux (fun e : EdgeNode => e.dest == t) (e0 :: rest)]? = some x :=
      ⟨_, List.getElem?_eq_getElem hlt⟩
    have hmeml : elast ∈ e0 :: rest := List.getElem?_mem helast
    have hfail : (elast.dest == t) = false := by
      have := List.any_eq_false.mp hany elast hmeml
      exact Bool.eq_false_iff.mpr this
    simp only [addEdgeHelper, hf, hEL, List.isEmpty_cons, Bool.false_eq_true, if_false,
      findEdgeHelperAux, helast, hfail]
    have hlen : scanAux (fun e : EdgeNode => e.dest == t) (e0 :: rest) + 1 =
        (e0 :: rest).length := by
      simp only [List.length_cons] at hscan hlt ⊢
      omega
    rw [hlen, List.take_length]

theorem addEdgeHelper_mem {W : Bool} {g : Graph V} {f t : Nat} {w : Int}
    {node : VertexNode V} (hf : g.vertex_node_list[f]? = some node)
    (hm : ∃ e ∈ node.edge_list, e.dest = t) :
    ∃ s e, addEdgeHelper W g f t w = ((⟨some f, some s⟩, false), g) ∧
      node.edge_list[s]? = some e ∧ e.dest = t ∧
      ∀ j ej, j < s → node.edge_list[j]? = some ej → ej.dest ≠ t := by
  have hany : node.edge_list.any (fun e => e.dest == t) = true := by
    rw [List.any_eq_true]
    obtain ⟨e, he, het⟩ := hm
    exact ⟨e, he, by simpa using het⟩
  obtain ⟨efound, hefound, hpe⟩ := scanAux_found (fun e : EdgeNode => e.dest == t) _ hany
  have hne : ¬ node.edge_list.isEmpty = true := by
    rcases hEL : node.edge_list with _ | _
    · rw [hEL] at hany; simp at hany
    · simp
  refine ⟨scanAux (fun e : EdgeNode => e.dest == t) node.edge_list, efound, ?_, hefound,
    by simpa using hpe, ?_⟩
  · simp only [addEdgeHelper, hf, hne, Bool.false_eq_true, if_false, findEdgeHelperAux,
      hefound, hpe, if_true]
  · intro j ej hj hje hc
    obtain ⟨x, hx, hpx⟩ := scanAux_first (fun e : EdgeNode => e.dest == t) _ j hj
    rw [hje] at hx
    obtain rfl : ej = x := by simpa using hx
    rw [hc] at hpx
    simp at hpx

/-! ### Rewriting the observations under the two mutation shapes -/

theorem set_of_getElem? {α : Type} {l : List α} {i : Nat} {a : α} (h : l[i]? = some a) :
    l.set i a = l := by
  obtain ⟨hlt, hget⟩ := List.getElem?_eq_some.mp h
  apply List.ext_getElem?
  intro n
  by_cases hn : n = i
  · subst hn
    rw [List.getElem?_set_self hlt, h]
  · rw [List.getElem?_set_ne (fun hc => hn hc.symm)]

theorem valAt_eq_vals (g : Graph V) (i : Nat) :
    valAt g i = ((vals g)[i]?).getD default := by
  simp [valAt, vals, List.getElem?_map]

theorem length_vals (g : Graph V) : (vals g).length = g.vertex_node_list.length := by
  simp [vals]

theorem vals_of_append {g g' : Graph V} {x : VertexNode V}
    (h : g'.vertex_node_list = g.vertex_node_list ++ [x]) :
    vals g' = vals g ++ [x.vertex] := by
  simp [vals, h]

theorem valAt_of_append {g g' : Graph V} {x : VertexNode V}
    (h : g'.vertex_node_list = g.vertex_node_list ++ [x]) {i : Nat}
    (hi : i < g.vertex_node_list.length) :
    valAt g' i = valAt g i := by
  rw [valAt, valAt, h, List.getElem?_append_left (by simpa using hi)]

theorem valAt_of_append_self {g g' : Graph V} {x : VertexNode V}
    (h : g'.vertex_node_list = g.vertex_node_list ++ [x]) :
    valAt g' g.vertex_node_list.length = x.vertex := by
  rw [valAt, h, List.getElem?_concat_length]
  rfl

theorem edgeListAt_of_append {g g' : Graph V} {x : VertexNode V}
    (h : g'.vertex_node_list = g.vertex_node_list ++ [x]) {i : Nat}
    (hi : i < g.vertex_node_list.length) :
    edgeListAt g' i = edgeListAt g i := by
  rw [edgeListAt, edgeListAt, h, List.getElem?_append_left (by simpa using hi)]

theorem edgeListAt_of_append_self {g g' : Graph V} {x : VertexNode V}
    (h : g'.vertex_node_list = g.vertex_node_list ++ [x]) :
    edgeListAt g' g.vertex_node_list.length = x.edge_list := by
  rw [edgeListAt, h, List.getElem?_concat_length]
  rfl

theorem vals_of_set {g g' : Graph V} {f : Nat} {node : VertexNode V} {L : List EdgeNode}
    (hf : g.vertex_node_list[f]? = some node)
    (h : g'.vertex_node_list = g.vertex_node_list.set f ⟨node.vertex, L⟩) :
    vals g' = vals g := by
  rw [vals, vals, h, List.map_set]
  exact set_of_getElem? (by rw [List.getElem?_map, hf]; rfl)

theorem valAt_of_set {g g' : Graph V} {f : Nat} {node : VertexNode V} {L : List EdgeNode}
    (hf : g.vertex_node_list[f]? = some node)
    (h : g'.vertex_node_list = g.vertex_node_list.set f ⟨node.vertex, L⟩) (i : Nat) :
    valAt g' i = valAt g i := by
  rw [valAt_eq_vals, valAt_eq_vals, vals_of_set hf h]

theorem edgeListAt_of_set_self {g g' : Graph V} {f : Nat} {node : VertexNode V}
    {L : List EdgeNode} (hf : g.vertex_node_list[f]? = some node)
    (h : g'.vertex_node_list = g.vertex_node_list.set f ⟨node.vertex, L⟩) :
    edgeListAt g' f = L := by
  obtain ⟨hlt, _⟩ := List.getElem?_eq_some.mp hf
  rw [edgeListAt, h, List.getElem?_set_self hlt]
  rfl

theorem edgeListAt_of_set_ne {g g' : Graph V} {f : Nat} {node : VertexNode V}
    {L : List EdgeNode} (hf : g.vertex_node_list[f]? = some node)
    (h : g'.vertex_node_list = g.vertex_node_list.set f ⟨node.vertex, L⟩) {i : Nat}
    (hi : i ≠ f) :
    edgeListAt g' i = edgeListAt g i := by
  rw [edgeListAt, edgeListAt, h, List.getElem?_set_ne (fun hc => hi hc.symm)]

theorem sum_set_nat {l : List Nat} : ∀ {i : Nat} {a x : Nat}, l[i]? = some x →
    (l.set i a).sum + x = l.sum + a := by
  induction l with
  | nil => intro i a x h; simp at h
  | cons y ys ih =>
    intro i a x h
    cases i with
    | zero =>
      simp only [List.getElem?_cons_zero, Option.some_inj] at h
      subst h
      simp [List.set]
      omega
    | succ k =>
      simp only [List.getElem?_cons_succ] at h
      have h2 := @ih k a x h
      simp only [List.set, List.sum_cons]
      omega

theorem totalEdgeRecords_of_set {g g' : Graph V} {f : Nat} {node : VertexNode V}
    {L : List EdgeNode} (hf : g.vertex_node_list[f]? = some node)
    (h : g'.vertex_node_list = g.vertex_node_list.set f ⟨node.vertex, L⟩) :
    totalEdgeRecords g' + node.edge_list.length = totalEdgeRecords g + L.length := by
  rw [totalEdgeRecords, totalEdgeRecords, h, List.map_set]
  exact sum_set_nat (by rw [List.getElem?_map, hf]; rfl)

theorem totalEdgeRecords_of_append {g g' : Graph V} {x : VertexNode V}
    (h : g'.vertex_node_list = g.vertex_node_list ++ [x]) :
    totalEdgeRecords g' = totalEdgeRecords g + x.edge_list.length := by
  rw [totalEdgeRecords, totalEdgeRecords, h, List.map_append, List.sum_append]
  simp

/-! ### Membership in `triples` -/

theorem mem_triples_iff {g : Graph V} {t : V × V × Int} :
    t ∈ triples g ↔ ∃ (i : Nat) (vn : VertexNode V), g.vertex_node_list[i]? = some vn ∧
      ∃ en ∈ vn.edge_list, t = (vn.vertex, valAt g en.dest, en.weight) := by
  rw [triples, List.mem_flatMap]
  constructor
  · rintro ⟨vn, hvn, ht⟩
    rw [List.mem_map] at ht
    obtain ⟨en, hen, ht⟩ := ht
    obtain ⟨i, hi⟩ := List.mem_iff_getElem?.mp hvn
    exact ⟨i, vn, hi, en, hen, ht.symm⟩
  · rintro ⟨i, vn, hi, en, hen, ht⟩
    refine ⟨vn, List.getElem?_mem hi, ?_⟩
    rw [List.mem_map]
    exact ⟨en, hen, ht.symm⟩

theorem flatMap_congr {α β : Type} {l : List α} {f f' : α → List β}
    (h : ∀ a ∈ l, f a = f' a) : l.flatMap f = l.flatMap f' := by
  induction l with
  | nil => rfl
  | cons x xs ih =>
    rw [List.flatMap_cons, List.flatMap_cons, h x (List.mem_cons_self x xs),
      ih (fun a ha => h a (List.mem_cons_of_mem x ha))]

theorem triples_of_append {g g' : Graph V} {x : VertexNode V}
    (hd : ∀ vn ∈ g.vertex_node_list, ∀ en ∈ vn.edge_list,
      en.dest < g.vertex_node_list.length)
    (hx : x.edge_list = [])
    (h : g'.vertex_node_list = g.vertex_node_list ++ [x]) :
    triples g' = triples g := by
  rw [triples, triples, h, List.flatMap_append]
  have h2 : ([x] : List (VertexNode V)).flatMap
      (fun vn => vn.edge_list.map fun en => (vn.vertex, valAt g' en.dest, en.weight)) = [] := by
    simp [hx]
  rw [h2, List.append_nil]
  apply flatMap_congr
  intro vn hvn
  apply List.map_congr_left
  intro en hen
  rw [valAt_of_append h (hd vn hvn en hen)]

theorem mem_triples_of_set_append {g g' : Graph V} {f : Nat} {node : VertexNode V}
    {en : EdgeNode} (hf : g.vertex_node_list[f]? = some node)
    (h : g'.vertex_node_list = g.vertex_node_list.set f ⟨node.vertex, node.edge_list ++ [en]⟩) :
    ∀ t, t ∈ triples g' ↔ t ∈ triples g ∨ t = (node.vertex, valAt g en.dest, en.weight) := by
  intro t
  obtain ⟨hlt, -⟩ := List.getElem?_eq_some.mp hf
  have hval : ∀ k, valAt g' k = valAt g k := valAt_of_set hf h
  rw [mem_triples_iff, mem_triples_iff]
  constructor
  · rintro ⟨i, vn, hi, e, he, ht⟩
    rw [h] at hi
    by_cases hif : i = f
    · rw [hif, List.getElem?_set_self hlt] at hi
      have hvn : vn = ⟨node.vertex, node.edge_list ++ [en]⟩ := (Option.some_inj.mp hi).symm
      rw [hvn] at he ht
      simp only [List.mem_append, List.mem_singleton] at he
      rcases he with he | rfl
      · left
        exact ⟨f, node, hf, e, he, by rw [ht, hval]⟩
      · right
        rw [ht, hval]
    · rw [List.getElem?_set_ne (fun hc => hif hc.symm)] at hi
      left
      exact ⟨i, vn, hi, e, he, by rw [ht, hval]⟩
  · rintro (⟨i, vn, hi, e, he, ht⟩ | rfl)
    · by_cases hif : i = f
      · rw [hif] at hi
        have hvn : node = vn := by rw [hf] at hi; exact Option.some_inj.mp hi
        refine ⟨f, ⟨node.vertex, node.edge_list ++ [en]⟩, ?_, e, ?_, ?_⟩
        · rw [h, List.getElem?_set_self hlt]
        · exact List.mem_append_left _ (by rw [hvn]; exact he)
        · rw [ht, ← hvn]
          simp [hval]
      · refine ⟨i, vn, ?_, e, he, ?_⟩
        · rw [h, List.getElem?_set_ne (fun hc => hif hc.symm)]
          exact hi
        · rw [ht, hval]
    · refine ⟨f, ⟨node.vertex, node.edge_list ++ [en]⟩, ?_, en, ?_, ?_⟩
      · rw [h, List.getElem?_set_self hlt]
      · exact List.mem_append_right _ (List.mem_singleton.mpr rfl)
      · simp [hval]

/-! ### Concrete fixtures for witnesses -/

/-- The default `std::equal_to` predicate at `V = Nat`. -/
def natEq : Nat → Nat → Bool := fun a b => a == b

theorem natEq_iff : ∀ a b : Nat, natEq a b = true ↔ a = b := by
  intro a b
  simp [natEq]

theorem natEq_sym : ∀ a b : Nat, natEq a b = natEq b a :=
  hsym_of_heq natEq_iff

/-- A one-vertex fixture: `addVertex(5)` on an empty graph. -/
def gFive : Graph Nat := (addVertex natEq (emptyGraph : Graph Nat) 5).2

/-! ### C7 -/

/-- C7: for both cursor types, dereferencing a cursor whose record half is the
end sentinel raises the invalid-state error, advancing a cursor already at the
end sentinel raises the end-of-iteration error, and dereferencing or advancing
a cursor not at the sentinel raises no error. -/
theorem C7_cursor_error_contract (g : Graph V) :
    vertexIterDeref g none = .error .invalidState ∧
    vertexIterInc g none = .error .endOfIteration ∧
    (∀ i : Nat, vertexIterDeref g (some i) = .ok (valAt g i)) ∧
    (∀ i : Nat, ∃ it, vertexIterInc g (some i) = .ok it) ∧
    (∀ ov : Option Nat, edgeIterDeref g ⟨ov, none⟩ = .error .invalidState) ∧
    (∀ ov : Option Nat, edgeIterInc g ⟨ov, none⟩ = .error .endOfIteration) ∧
    (∀ f s : Nat, edgeIterDeref g ⟨some f, some s⟩ = .ok (getTuple g f s)) ∧
    (∀ ov : Option Nat, ∀ s : Nat, ∃ it', edgeIterInc g ⟨ov, some s⟩ = .ok it') :=
  ⟨rfl, rfl, fun _ => rfl, fun _ => ⟨_, rfl⟩, fun _ => rfl, fun _ => rfl,
   fun _ _ => rfl, fun _ _ => ⟨_, rfl⟩⟩

/-! ### C10 -/

/-- C10: `getEdges` performs no sentinel check before reading the vertex
record's edge-list head: at the end cursor the embedding is partial (`none`,
the error branch is absent), and on a live cursor it returns an edge cursor at
that vertex's first edge record, whose dereference yields the first record's
tuple. -/
theorem C10_getEdges_unguarded (g : Graph V) :
    getEdges g none = none ∧
    (∀ i : Nat, getEdges g (some i) =
      some ⟨some i, if (edgeListAt g i).isEmpty then none else some 0⟩) ∧
    (∀ (i : Nat) (e0 : EdgeNode) (rest : List EdgeNode), edgeListAt g i = e0 :: rest →
      getEdges g (some i) = some ⟨some i, some 0⟩ ∧
      edgeIterDeref g ⟨some i, some 0⟩ = .ok (valAt g i, valAt g e0.dest, e0.weight)) := by
  refine ⟨rfl, fun i => rfl, ?_⟩
  intro i e0 rest h
  constructor
  · simp [getEdges, h]
  · simp [edgeIterDeref, getTuple, h]

/-- Witness for C10 at a concrete graph: the undirected unweighted graph built
from the single edge `(1, 2)`. -/
theorem C10_getEdges_unguarded_witness :
    edgeListAt (graphFromEdges false false natEq [(1, 2, 0)]) 0 = [⟨0, 1⟩] ∧
    (getEdges (graphFromEdges false false natEq [(1, 2, 0)]) (some 0) =
        some ⟨some 0, some 0⟩ ∧
      edgeIterDeref (graphFromEdges false false natEq [(1, 2, 0)]) ⟨some 0, some 0⟩ =
        .ok (1, 2, 0)) :=
  ⟨by decide,
   (C10_getEdges_unguarded (graphFromEdges false false natEq [(1, 2, 0)])).2.2 0 ⟨0, 1⟩ []
     (by decide)⟩

/-! ### C5 -/

/-- C5: vertex insertion is idempotent under the equality predicate: if a
record equal to `v` already exists, `addVertex v` returns a cursor to the
first such record with `inserted = false` and mutates nothing (in particular
the vertex count is unchanged); otherwise it appends a new record at the tail,
increments the count, and returns `inserted = true`. -/
theorem C5_addVertex_idempotent {veq : V → V → Bool} (hsym : ∀ a b, veq a b = veq b a)
    (g : Graph V) (v : V) :
    ((∃ x ∈ g.vertex_node_list, veq x.vertex v = true) →
      ∃ i node, addVertex veq g v = ((i, false), g) ∧
        g.vertex_node_list[i]? = some node ∧ veq node.vertex v = true ∧
        ∀ j nj, j < i → g.vertex_node_list[j]? = some nj → veq nj.vertex v = false) ∧
    ((∀ x ∈ g.vertex_node_list, veq x.vertex v = false) →
      addVertex veq g v = ((g.vertex_node_list.length, true),
        ⟨g.vertex_node_list ++ [⟨v, []⟩], g.m_size + 1⟩)) := by
  constructor
  · rintro ⟨x, hx, hxv⟩
    have hany : (g.vertex_node_list.any (fun y => veq v y.vertex)) = true := by
      rw [List.any_eq_true]
      exact ⟨x, hx, by rw [hsym]; exact hxv⟩
    obtain ⟨node, hnode, hpv⟩ :=
      scanAux_found (fun y : VertexNode V => veq v y.vertex) _ hany
    refine ⟨_, node, addVertex_mem hsym hany, hnode, by rw [hsym]; exact hpv, ?_⟩
    intro j nj hj hnj
    obtain ⟨y, hy, hpy⟩ :=
      scanAux_first (fun y : VertexNode V => veq v y.vertex) _ j hj
    rw [hnj] at hy
    obtain rfl : nj = y := by simpa using hy
    rw [hsym]
    exact hpy
  · intro hall
    apply addVertex_not_mem hsym
    rw [List.any_eq_false]
    intro x hx hc
    have := hall x hx
    rw [hsym] at this
    rw [this] at hc
    exact Bool.false_ne_true hc

/-- Witness for C5: in `gFive` the value `5` is already stored, so re-inserting
it returns `(cursor, false)` and leaves the graph intact; on the fresh side,
`6` is absent so it is appended with `inserted = true`. -/
theorem C5_addVertex_idempotent_witness :
    ((∃ x ∈ gFive.vertex_node_list, natEq x.vertex 5 = true) ∧
      ∃ i node, addVertex natEq gFive 5 = ((i, false), gFive) ∧
        gFive.vertex_node_list[i]? = some node ∧ natEq node.vertex 5 = true ∧
        ∀ j nj, j < i → gFive.vertex_node_list[j]? = some nj → natEq nj.vertex 5 = false) ∧
    ((∀ x ∈ gFive.vertex_node_list, natEq x.vertex 6 = false) ∧
      addVertex natEq gFive 6 = ((gFive.vertex_node_list.length, true),
        ⟨gFive.vertex_node_list ++ [⟨6, []⟩], gFive.m_size + 1⟩)) :=
  ⟨⟨by decide, (C5_addVertex_idempotent natEq_sym gFive 5).1 (by decide)⟩,
   ⟨by decide, (C5_addVertex_idempotent natEq_sym gFive 6).2 (by decide)⟩⟩

/-! ### C4 -/

/-- C4: edge insertion is idempotent per ordered endpoint pair: when the edge
list of the source record already holds a record with destination `t`, another
`addEdgeHelper` call with any weight `w` returns a cursor to the first such
record with `inserted = false` and returns the graph unchanged — no new record
and no weight update. -/
theorem C4_addEdge_idempotent {W : Bool} {g : Graph V} {f t : Nat} {w : Int}
    {node : VertexNode V} (hf : g.vertex_node_list[f]? = some node)
    (hm : ∃ e ∈ node.edge_list, e.dest = t) :
    ∃ s e, addEdgeHelper W g f t w = ((⟨some f, some s⟩, false), g) ∧
      node.edge_list[s]? = some e ∧ e.dest = t ∧
      ∀ j ej, j < s → node.edge_list[j]? = some ej → ej.dest ≠ t :=
  addEdgeHelper_mem hf hm

/-- Witness for C4: in the undirected weighted graph holding edge `(1,2)` with
weight `5`, re-inserting `1 → 2` with weight `7` reports a duplicate, keeps
the stored weight `5`, and leaves the graph unchanged. -/
theorem C4_addEdge_idempotent_witness :
    ((graphFromEdges false true natEq [(1, 2, 5)]).vertex_node_list[0]? =
        some ⟨1, [⟨5, 1⟩]⟩ ∧ (∃ e ∈ [(⟨5, 1⟩ : EdgeNode)], e.dest = 1) ∧
    (∃ s e, addEdgeHelper true (graphFromEdges false true natEq [(1, 2, 5)]) 0 1 7 =
        ((⟨some 0, some s⟩, false), graphFromEdges false true natEq [(1, 2, 5)]) ∧
      [(⟨5, 1⟩ : EdgeNode)][s]? = some e ∧ e.dest = 1 ∧
      ∀ j ej, j < s → [(⟨5, 1⟩ : EdgeNode)][j]? = some ej → ej.dest ≠ 1)) :=
  ⟨by decide, by decide,
   @C4_addEdge_idempotent Nat _ true (graphFromEdges false true natEq [(1, 2, 5)]) 0 1 7
     ⟨1, [⟨5, 1⟩]⟩ (by decide) (by decide)⟩

/-! ### C6 -/

/-- Modelled from the spec: the "number of distinct values under the equality
predicate" of a sequence — fold the sequence keeping a value only when no
already-kept value is equal to it. -/
def dedupAcc (veq : V → V → Bool) : List V → List V → List V
  | acc, [] => acc
  | acc, v :: rest =>
    dedupAcc veq (if acc.any (fun u => veq v u) then acc else acc ++ [v]) rest

/-- Modelled from the spec: the number of distinct values of a sequence under
the equality predicate. -/
def numDistinct (veq : V → V → Bool) (l : List V) : Nat :=
  (dedupAcc veq [] l).length

theorem addVertexList_spec {veq : V → V → Bool} (hsym : ∀ a b, veq a b = veq b a) :
    ∀ (l : List V) (g : Graph V), g.m_size = (vals g).length →
      vals (addVertexList veq g l) = dedupAcc veq (vals g) l ∧
      (addVertexList veq g l).m_size = (dedupAcc veq (vals g) l).length := by
  intro l
  induction l with
  | nil => intro g hg; exact ⟨rfl, hg⟩
  | cons v rest ih =>
    intro g hg
    have hmap : (vals g).any (fun u => veq v u) =
        g.vertex_node_list.any (fun x => veq v x.vertex) := by
      apply Bool.eq_iff_iff.mpr
      simp only [List.any_eq_true, vals, List.mem_map]
      constructor
      · rintro ⟨u, ⟨x, hx, rfl⟩, hu⟩
        exact ⟨x, hx, hu⟩
      · rintro ⟨x, hx, hu⟩
        exact ⟨x.vertex, ⟨x, hx, rfl⟩, hu⟩
    rcases hany : g.vertex_node_list.any (fun x => veq v x.vertex) with _ | _
    · -- fresh value: appended
      have hstep := addVertex_not_mem hsym hany
      have h1 : addVertexList veq g (v :: rest) =
          addVertexList veq (⟨g.vertex_node_list ++ [⟨v, []⟩], g.m_size + 1⟩ : Graph V) rest := by
        rw [addVertexList, List.foldl_cons, hstep]
        rfl
      have h2 : dedupAcc veq (vals g) (v :: rest) =
          dedupAcc veq (vals g ++ [v]) rest := by
        rw [dedupAcc, hmap, hany]
        simp
      rw [h1, h2]
      have hg' : (⟨g.vertex_node_list ++ [⟨v, []⟩], g.m_size + 1⟩ : Graph V).m_size =
          (vals (⟨g.vertex_node_list ++ [⟨v, []⟩], g.m_size + 1⟩ : Graph V)).length := by
        simp [vals, hg]
      have := ih (⟨g.vertex_node_list ++ [⟨v, []⟩], g.m_size + 1⟩ : Graph V) hg'
      have hv : vals (⟨g.vertex_node_list ++ [⟨v, []⟩], g.m_size + 1⟩ : Graph V) =
          vals g ++ [v] := by simp [vals]
      rw [hv] at this
      exact this
    · -- duplicate value: no mutation
      have hstep := addVertex_mem hsym hany
      have h1 : addVertexList veq g (v :: rest) = addVertexList veq g rest := by
        rw [addVertexList, List.foldl_cons, hstep]
        rfl
      have h2 : dedupAcc veq (vals g) (v :: rest) = dedupAcc veq (vals g) rest := by
        rw [dedupAcc, hmap, hany]
        simp
      rw [h1, h2]
      exact ih g hg

/-- C6: for every sequence of values inserted into an initially empty graph,
the final vertex count equals the number of distinct values of the sequence
under the (symmetric) equality predicate. -/
theorem C6_count_integrity {veq : V → V → Bool} (hsym : ∀ a b, veq a b = veq b a)
    (l : List V) :
    (addVertexList veq (emptyGraph : Graph V) l).m_size = numDistinct veq l := by
  have := (addVertexList_spec hsym l (emptyGraph : Graph V) rfl).2
  rw [this]
  rfl

/-- Witness for C6: the sequence `[5, 3, 5, 8, 3]` has three distinct values
and yields vertex count `3`. -/
theorem C6_count_integrity_witness :
    (∀ a b : Nat, natEq a b = natEq b a) ∧
    (addVertexList natEq (emptyGraph : Graph Nat) [5, 3, 5, 8, 3]).m_size =
      numDistinct natEq [5, 3, 5, 8, 3] ∧
    (addVertexList natEq (emptyGraph : Graph Nat) [5, 3, 5, 8, 3]).m_size = 3 :=
  ⟨natEq_sym, C6_count_integrity natEq_sym [5, 3, 5, 8, 3], by decide⟩

/-! ### C9 -/

/-- The invariant of C9: the stored count equals the number of vertex records
reachable from the list head. -/
def SizeInv (g : Graph V) : Prop := g.m_size = g.vertex_node_list.length

theorem sizeInv_addVertex {veq : V → V → Bool} (hsym : ∀ a b, veq a b = veq b a)
    {g : Graph V} (h : SizeInv g) (v : V) : SizeInv (addVertex veq g v).2 := by
  rcases hany : g.vertex_node_list.any (fun x => veq v x.vertex) with _ | _
  · rw [addVertex_not_mem hsym hany]
    simp only [SizeInv] at h ⊢
    simp [h]
  · rw [addVertex_mem hsym hany]
    exact h

theorem addEdgeHelper_sizes {W : Bool} (g : Graph V) (f t : Nat) (w : Int) :
    (addEdgeHelper W g f t w).2.m_size = g.m_size ∧
    (addEdgeHelper W g f t w).2.vertex_node_list.length = g.vertex_node_list.length := by
  rcases hf : g.vertex_node_list[f]? with _ | node
  · simp [addEdgeHelper, hf]
  · rcases hE : node.edge_list.isEmpty with _ | _
    · rcases he : node.edge_list[findEdgeHelperAux t node.edge_list]? with _ | e
      · simp [addEdgeHelper, hf, hE, he]
      · rcases hd : (e.dest == t) with _ | _
        · simp [addEdgeHelper, hf, hE, he, hd, List.length_set]
        · simp [addEdgeHelper, hf, hE, he, hd]
    · simp [addEdgeHelper, hf, hE, List.length_set]

theorem sizeInv_addEdgeHelper {W : Bool} {g : Graph V} (h : SizeInv g) (f t : Nat) (w : Int) :
    SizeInv (addEdgeHelper W g f t w).2 := by
  have := addEdgeHelper_sizes (W := W) g f t w
  rw [SizeInv, this.1, this.2]
  exact h

theorem sizeInv_addEdge {D W : Bool} {veq : V → V → Bool} (hsym : ∀ a b, veq a b = veq b a)
    {g : Graph V} (h : SizeInv g) (e : V × V × Int) : SizeInv (addEdge D W veq g e).2 := by
  rcases D with _ | _
  · rw [addEdge]
    simp only [Bool.false_eq_true, if_false, addEdgeCallerUndirected]
    exact sizeInv_addEdgeHelper
      (sizeInv_addEdgeHelper (sizeInv_addVertex hsym (sizeInv_addVertex hsym h e.1) e.2.1) _ _ _)
      _ _ _
  · rw [addEdge]
    simp only [if_true, addEdgeCallerDirected]
    exact sizeInv_addEdgeHelper
      (sizeInv_addVertex hsym (sizeInv_addVertex hsym h e.1) e.2.1) _ _ _

theorem sizeInv_foldl_addEdge {D W : Bool} {veq : V → V → Bool}
    (hsym : ∀ a b, veq a b = veq b a) {β : Type} (F : β → V × V × Int) :
    ∀ (l : List β) (g : Graph V), SizeInv g →
      SizeInv (l.foldl (fun acc x => (addEdge D W veq acc (F x)).2) g) := by
  intro l
  induction l with
  | nil => intro g h; exact h
  | cons x xs ih =>
    intro g h
    rw [List.foldl_cons]
    exact ih _ (sizeInv_addEdge hsym h (F x))

/-- C9: the stored vertex count always equals the number of reachable vertex
records: the invariant holds for the empty graph and is preserved by vertex
insertion (single and batch), edge insertion (single and batch), construction
from an edge sequence, copy assignment, and teardown. -/
theorem C9_size_invariant {D W : Bool} {veq : V → V → Bool}
    (hsym : ∀ a b, veq a b = veq b a) :
    SizeInv (emptyGraph : Graph V) ∧
    (∀ (g : Graph V) (v : V), SizeInv g → SizeInv (addVertex veq g v).2) ∧
    (∀ (g : Graph V) (l : List V), SizeInv g → SizeInv (addVertexList veq g l)) ∧
    (∀ (g : Graph V) (e : V × V × Int), SizeInv g → SizeInv (addEdge D W veq g e).2) ∧
    (∀ (g : Graph V) (l : List (V × V × Int)), SizeInv g → SizeInv (addEdgeList D W veq g l)) ∧
    (∀ edges : List (V × V × Int), SizeInv (graphFromEdges D W veq edges)) ∧
    (∀ g src : Graph V, SizeInv (assignCopy D W veq g src)) ∧
    (∀ g : Graph V, SizeInv (destroyGraph g)) := by
  have hfold := sizeInv_foldl_addEdge (D := D) (W := W) hsym (fun e : V × V × Int => e)
  refine ⟨rfl, fun g v h => sizeInv_addVertex hsym h v, ?_, fun g e h => sizeInv_addEdge hsym h e,
    ?_, ?_, ?_, fun g => rfl⟩
  · intro g l h
    induction l generalizing g with
    | nil => exact h
    | cons v rest ih => exact ih _ (sizeInv_addVertex hsym h v)
  · intro g l h
    exact hfold l g h
  · intro edges
    exact hfold edges emptyGraph rfl
  · intro g src
    rw [assignCopy]
    have : ∀ (L : List (VertexNode V)) (acc : Graph V), SizeInv acc →
        SizeInv (L.foldl (fun acc vn => vn.edge_list.foldl
          (fun acc2 en =>
            (addEdge D W veq acc2 (vn.vertex, valAt src en.dest, en.weight)).2) acc) acc) := by
      intro L
      induction L with
      | nil => intro acc h; exact h
      | cons vn rest ih =>
        intro acc h
        rw [List.foldl_cons]
        refine ih _ ?_
        exact sizeInv_foldl_addEdge hsym
          (fun en : EdgeNode => (vn.vertex, valAt src en.dest, en.weight)) vn.edge_list acc h
    exact this _ _ rfl

/-- Witness for C9: the invariant components applied at concrete graphs. -/
theorem C9_size_invariant_witness :
    (SizeInv gFive ∧ SizeInv (addVertex natEq gFive 7).2) ∧
    (SizeInv gFive ∧ SizeInv (addEdge false true natEq gFive (1, 2, 9)).2) ∧
    SizeInv (assignCopy false true natEq (emptyGraph : Graph Nat) gFive) :=
  ⟨⟨by rfl, (C9_size_invariant (D := false) (W := true) natEq_sym).2.1 gFive 7 (by rfl)⟩,
   ⟨by rfl, (C9_size_invariant (D := false) (W := true) natEq_sym).2.2.2.1 gFive (1, 2, 9)
      (by rfl)⟩,
   (C9_size_invariant (D := false) (W := true) natEq_sym).2.2.2.2.2.2.1
     (emptyGraph : Graph Nat) gFive⟩

/-! ### First-occurrence indices and `findVertex` -/

theorem first_getElem?_unique {α : Type} {l : List α} {a : α} {i k : Nat}
    (hi : l[i]? = some a) (hfi : ∀ j, j < i → l[j]? ≠ some a)
    (hk : l[k]? = some a) (hfk : ∀ j, j < k → l[j]? ≠ some a) : i = k := by
  rcases Nat.lt_trichotomy i k with h | h | h
  · exact absurd hi (hfk i h)
  · exact h
  · exact absurd hk (hfi k h)

theorem nodup_getElem?_unique {α : Type} {l : List α} {a : α} {i k : Nat}
    (hnd : l.Nodup) (hi : l[i]? = some a) (hk : l[k]? = some a) : i = k := by
  obtain ⟨hi1, hi2⟩ := List.getElem?_eq_some.mp hi
  obtain ⟨hk1, hk2⟩ := List.getElem?_eq_some.mp hk
  exact (List.Nodup.getElem_inj_iff hnd).mp (by rw [hi2, hk2])

theorem nodup_concat {α : Type} {l : List α} {a : α} (hnd : l.Nodup) (ha : a ∉ l) :
    (l ++ [a]).Nodup := by
  rw [List.nodup_append]
  refine ⟨hnd, List.nodup_singleton a, ?_⟩
  intro b hb hba
  rw [List.mem_singleton] at hba
  exact ha (hba ▸ hb)

theorem vals_getElem?_iff {g : Graph V} {i : Nat} {x : V} :
    (vals g)[i]? = some x ↔
      ∃ vn, g.vertex_node_list[i]? = some vn ∧ vn.vertex = x := by
  rw [vals, List.getElem?_map]
  rcases h : g.vertex_node_list[i]? with _ | vn
  · simp
  · simp

theorem valAt_of_vals_getElem? {g : Graph V} {i : Nat} {x : V}
    (h : (vals g)[i]? = some x) : valAt g i = x := by
  rw [valAt_eq_vals, h]
  rfl

theorem vals_getElem?_of_lt {g : Graph V} {i : Nat} (h : i < g.vertex_node_list.length) :
    (vals g)[i]? = some (valAt g i) := by
  rw [vals, List.getElem?_map, List.getElem?_eq_getElem h, valAt, List.getElem?_eq_getElem h]
  rfl

theorem edgeListAt_of_getElem? {g : Graph V} {i : Nat} {vn : VertexNode V}
    (h : g.vertex_node_list[i]? = some vn) : edgeListAt g i = vn.edge_list := by
  rw [edgeListAt, h]
  rfl

theorem findVertex_spec_mem {veq : V → V → Bool} (heq : ∀ a b, veq a b = true ↔ a = b)
    {g : Graph V} {v : V} (h : v ∈ vals g) :
    ∃ i, findVertex veq g v = some i ∧ (vals g)[i]? = some v ∧
      ∀ j, j < i → (vals g)[j]? ≠ some v := by
  have hany : (g.vertex_node_list.any (fun x => veq v x.vertex)) = true :=
    (any_veq_eq_mem heq g v).mpr h
  have hne : ¬ g.vertex_node_list.isEmpty = true := by
    rcases hl : g.vertex_node_list with _ | _
    · rw [hl] at hany; simp at hany
    · simp
  obtain ⟨node, hnode, hpv⟩ := scanAux_found (fun x : VertexNode V => veq v x.vertex) _ hany
  refine ⟨findVertexHelperAux veq v g.vertex_node_list, ?_, ?_, ?_⟩
  · rw [findVertex, findVertexHelper, if_neg hne]
    simp only [findVertexHelperAux]
    rw [hnode]
    simp [(heq _ _).mpr ((heq _ _).mp hpv).symm]
  · rw [vals, List.getElem?_map, findVertexHelperAux, hnode]
    simp [((heq _ _).mp hpv).symm]
  · intro j hj hjv
    obtain ⟨x, hx, hpx⟩ := scanAux_first (fun x : VertexNode V => veq v x.vertex) _ j hj
    rw [vals, List.getElem?_map, hx] at hjv
    simp only [Option.map_some', Option.some_inj] at hjv
    have : veq v x.vertex = true := (heq _ _).mpr hjv.symm
    rw [this] at hpx
    exact Bool.true_eq_false.mp hpx

theorem findVertex_spec_not_mem {veq : V → V → Bool} (heq : ∀ a b, veq a b = true ↔ a = b)
    {g : Graph V} {v : V} (h : v ∉ vals g) : findVertex veq g v = none := by
  rcases hl : g.vertex_node_list with _ | ⟨x, xs⟩
  · simp [findVertex, findVertexHelper, hl]
  · have hne : ¬ g.vertex_node_list.isEmpty = true := by rw [hl]; simp
    have hlt : findVertexHelperAux veq v g.vertex_node_list < g.vertex_node_list.length := by
      rw [findVertexHelperAux]
      exact scanAux_lt _ _ (by rw [hl]; simp)
    obtain ⟨node, hnode⟩ : ∃ x, g.vertex_node_list[findVertexHelperAux veq v
        g.vertex_node_list]? = some x := ⟨_, List.getElem?_eq_getElem hlt⟩
    have hmem : node.vertex ∈ vals g := by
      rw [vals, List.mem_map]
      exact ⟨node, List.getElem?_mem hnode, rfl⟩
    have hfail : veq node.vertex v = false := by
      rw [Bool.eq_false_iff]
      intro hc
      exact h (((heq _ _).mp hc) ▸ hmem)
    rw [findVertex, findVertexHelper, if_neg hne]
    simp only []
    rw [hnode]
    simp [hfail]

/-! ### Value-level membership of edge records -/

theorem triple_mem_iff_record {g : Graph V} (hwf : WF g) {x y : V} {u : Int} {ix iy : Nat}
    (hx : (vals g)[ix]? = some x) (hy : (vals g)[iy]? = some y) :
    (x, y, u) ∈ triples g ↔ ∃ e ∈ edgeListAt g ix, e.dest = iy ∧ e.weight = u := by
  constructor
  · intro ht
    rw [mem_triples_iff] at ht
    obtain ⟨i, vn, hi, en, hen, hteq⟩ := ht
    obtain ⟨h1, h2, h3⟩ : x = vn.vertex ∧ y = valAt g en.dest ∧ u = en.weight := by
      simpa [Prod.ext_iff] using hteq
    have hdlt : en.dest < g.vertex_node_list.length :=
      hwf.dest_lt vn (List.getElem?_mem hi) en hen
    have hix : i = ix := by
      refine nodup_getElem?_unique hwf.vals_nodup ?_ hx
      rw [vals_getElem?_iff]
      exact ⟨vn, hi, h1.symm⟩
    have hiy : en.dest = iy := by
      refine nodup_getElem?_unique hwf.vals_nodup ?_ hy
      rw [vals_getElem?_of_lt hdlt, h2]
    subst hix
    rw [edgeListAt_of_getElem? hi]
    exact ⟨en, hen, hiy, h3.symm⟩
  · rintro ⟨e, he, hd, hw⟩
    obtain ⟨vn, hvn, hvx⟩ := vals_getElem?_iff.mp hx
    rw [mem_triples_iff]
    refine ⟨ix, vn, hvn, e, ?_, ?_⟩
    · rw [edgeListAt_of_getElem? hvn] at he
      exact he
    · rw [hvx, hd, hw, valAt_of_vals_getElem? hy]

theorem pairMem_endpoints {g : Graph V} (hwf : WF g) {x y : V} (h : PairMem g x y) :
    x ∈ vals g ∧ y ∈ vals g := by
  obtain ⟨u, hu⟩ := h
  rw [mem_triples_iff] at hu
  obtain ⟨i, vn, hi, en, hen, hteq⟩ := hu
  obtain ⟨h1, h2, -⟩ : x = vn.vertex ∧ y = valAt g en.dest ∧ u = en.weight := by
    simpa [Prod.ext_iff] using hteq
  have hdlt : en.dest < g.vertex_node_list.length :=
    hwf.dest_lt vn (List.getElem?_mem hi) en hen
  constructor
  · rw [vals, List.mem_map]
    exact ⟨vn, List.getElem?_mem hi, h1.symm⟩
  · rw [h2]
    exact List.getElem?_mem (vals_getElem?_of_lt hdlt)

/-! ### Preservation of well-formedness -/

theorem WF_append_vertex {g g' : Graph V} {x : V} (hwf : WF g) (hx : x ∉ vals g)
    (h : g'.vertex_node_list = g.vertex_node_list ++ [⟨x, []⟩]) : WF g' := by
  refine ⟨?_, ?_, ?_⟩
  · intro vn hvn en hen
    rw [h] at hvn ⊢
    rw [List.mem_append] at hvn
    rcases hvn with hvn | hvn
    · have := hwf.dest_lt vn hvn en hen
      rw [List.length_append]
      omega
    · obtain rfl : vn = ⟨x, []⟩ := List.mem_singleton.mp hvn
      simp at hen
  · rw [vals_of_append h]
    exact nodup_concat hwf.vals_nodup hx
  · intro vn hvn
    rw [h, List.mem_append] at hvn
    rcases hvn with hvn | hvn
    · exact hwf.edges_nodup vn hvn
    · obtain rfl : vn = ⟨x, []⟩ := List.mem_singleton.mp hvn
      simp

theorem WF_set_append_edge {g g' : Graph V} {f : Nat} {node : VertexNode V} {en : EdgeNode}
    (hwf : WF g) (hf : g.vertex_node_list[f]? = some node)
    (hdlt : en.dest < g.vertex_node_list.length)
    (hdnew : ∀ e ∈ node.edge_list, e.dest ≠ en.dest)
    (h : g'.vertex_node_list = g.vertex_node_list.set f ⟨node.vertex, node.edge_list ++ [en]⟩) :
    WF g' := by
  have hnode_mem : node ∈ g.vertex_node_list := List.getElem?_mem hf
  refine ⟨?_, ?_, ?_⟩
  · intro vn hvn e he
    rw [h] at hvn ⊢
    rw [List.length_set]
    rcases List.mem_or_eq_of_mem_set hvn with hvn | rfl
    · exact hwf.dest_lt vn hvn e he
    · simp only [List.mem_append, List.mem_singleton] at he
      rcases he with he | rfl
      · exact hwf.dest_lt node hnode_mem e he
      · exact hdlt
  · rw [vals_of_set hf h]
    exact hwf.vals_nodup
  · intro vn hvn
    rw [h] at hvn
    rcases List.mem_or_eq_of_mem_set hvn with hvn | rfl
    · exact hwf.edges_nodup vn hvn
    · simp only [List.map_append]
      refine nodup_concat (hwf.edges_nodup node hnode_mem) ?_
      rw [List.mem_map]
      rintro ⟨e, he, hde⟩
      exact hdnew e he hde

theorem WF_empty : WF (emptyGraph : Graph V) := by
  refine ⟨?_, ?_, ?_⟩ <;> simp [emptyGraph, vals]

theorem pairMem_iff_record {g : Graph V} (hwf : WF g) {x y : V} {ix iy : Nat}
    (hx : (vals g)[ix]? = some x) (hy : (vals g)[iy]? = some y) :
    PairMem g x y ↔ ∃ e ∈ edgeListAt g ix, e.dest = iy := by
  rw [PairMem]
  constructor
  · rintro ⟨u, hu⟩
    obtain ⟨e, he, hd, -⟩ := (triple_mem_iff_record hwf hx hy).mp hu
    exact ⟨e, he, hd⟩
  · rintro ⟨e, he, hd⟩
    exact ⟨e.weight, (triple_mem_iff_record hwf hx hy).mpr ⟨e, he, hd, rfl⟩⟩

theorem first_occ_mono {α : Type} {l l' : List α} (hpre : l <+: l') {a : α} {i : Nat}
    (hi : l[i]? = some a) (hfirst : ∀ j, j < i → l[j]? ≠ some a) :
    l'[i]? = some a ∧ ∀ j, j < i → l'[j]? ≠ some a := by
  have hlt : i < l.length := (List.getElem?_eq_some.mp hi).1
  obtain ⟨t, rfl⟩ := hpre
  constructor
  · rw [List.getElem?_append_left hlt]
    exact hi
  · intro j hj
    rw [List.getElem?_append_left (lt_trans hj hlt)]
    exact hfirst j hj

/-- Everything the later proofs need to know about one `addVertex` call, at
the level of values. -/
theorem addVertex_value_spec {veq : V → V → Bool} (heq : ∀ a b, veq a b = true ↔ a = b)
    {g : Graph V} (hwf : WF g) (v : V) :
    WF (addVertex veq g v).2 ∧
    (vals (addVertex veq g v).2)[(addVertex veq g v).1.1]? = some v ∧
    (∀ j, j < (addVertex veq g v).1.1 → (vals (addVertex veq g v).2)[j]? ≠ some v) ∧
    (∀ x, x ∈ vals (addVertex veq g v).2 ↔ x ∈ vals g ∨ x = v) ∧
    triples (addVertex veq g v).2 = triples g ∧
    totalEdgeRecords (addVertex veq g v).2 = totalEdgeRecords g ∧
    vals g <+: vals (addVertex veq g v).2 ∧
    (v ∈ vals g → (addVertex veq g v).2 = g) ∧
    edgeListAt (addVertex veq g v).2 (addVertex veq g v).1.1 =
      (match findVertex veq g v with
       | some i => edgeListAt g i
       | none => []) := by
  by_cases hv : v ∈ vals g
  · obtain ⟨i, hr, hvi, hfirst⟩ := addVertex_spec_mem heq hv
    have hfv : findVertex veq g v = some i := by
      obtain ⟨i', hfv, hvi', hfirst'⟩ := findVertex_spec_mem heq hv
      rwa [first_getElem?_unique hvi' hfirst' hvi hfirst] at hfv
    rw [hr]
    refine ⟨hwf, hvi, hfirst, ?_, rfl, rfl, List.prefix_refl _, fun _ => rfl, ?_⟩
    · intro x
      constructor
      · exact fun h => Or.inl h
      · rintro (h | rfl)
        · exact h
        · exact hv
    · rw [hfv]
  · have hfv : findVertex veq g v = none := findVertex_spec_not_mem heq hv
    rw [addVertex_spec_not_mem heq hv]
    have happ : (⟨g.vertex_node_list ++ [⟨v, []⟩], g.m_size + 1⟩ : Graph V).vertex_node_list =
        g.vertex_node_list ++ [(⟨v, []⟩ : VertexNode V)] := rfl
    have hvalseq := vals_of_append (g := g) happ
    refine ⟨WF_append_vertex hwf hv happ, ?_, ?_, ?_, ?_, ?_, ?_, fun hc => absurd hc hv, ?_⟩
    · rw [hvalseq, ← length_vals g]
      exact List.getElem?_concat_length _ _
    · intro j hj
      rw [hvalseq]
      have hjlen : j < (vals g).length := by rw [length_vals]; exact hj
      rw [List.getElem?_append_left hjlen]
      intro hc
      exact hv (List.getElem?_mem hc)
    · intro x
      rw [hvalseq]
      simp
    · exact triples_of_append hwf.dest_lt rfl happ
    · rw [totalEdgeRecords_of_append happ]
      rfl
    · rw [hvalseq]
      exact List.prefix_append _ _
    · rw [hfv]
      exact edgeListAt_of_append_self happ

/-- Everything the later proofs need to know about one fresh
`addEdgeHelper` insertion. -/
theorem addEdgeHelper_value_fresh {W : Bool} {g : Graph V} (hwf : WF g) {f t : Nat}
    {w : Int} {node : VertexNode V} (hf : g.vertex_node_list[f]? = some node)
    (ht : t < g.vertex_node_list.length)
    (hno : ∀ e ∈ node.edge_list, e.dest ≠ t) :
    (addEdgeHelper W g f t w).1 = (⟨some f, some node.edge_list.length⟩, true) ∧
    WF (addEdgeHelper W g f t w).2 ∧
    vals (addEdgeHelper W g f t w).2 = vals g ∧
    (∀ k, valAt (addEdgeHelper W g f t w).2 k = valAt g k) ∧
    edgeListAt (addEdgeHelper W g f t w).2 f =
      node.edge_list ++ [⟨setEdgeWeight W w, t⟩] ∧
    (∀ k, k ≠ f → edgeListAt (addEdgeHelper W g f t w).2 k = edgeListAt g k) ∧
    (∀ tr, tr ∈ triples (addEdgeHelper W g f t w).2 ↔
      tr ∈ triples g ∨ tr = (node.vertex, valAt g t, setEdgeWeight W w)) ∧
    totalEdgeRecords (addEdgeHelper W g f t w).2 = totalEdgeRecords g + 1 := by
  rw [addEdgeHelper_not_mem hf hno]
  dsimp only
  have hset : ((⟨g.vertex_node_list.set f
      ⟨node.vertex, node.edge_list ++ [⟨setEdgeWeight W w, t⟩]⟩, g.m_size⟩ :
        Graph V)).vertex_node_list =
      g.vertex_node_list.set f ⟨node.vertex, node.edge_list ++ [⟨setEdgeWeight W w, t⟩]⟩ := rfl
  have htot := totalEdgeRecords_of_set hf hset
  refine ⟨rfl, WF_set_append_edge hwf hf ht hno hset, vals_of_set hf hset,
    valAt_of_set hf hset, edgeListAt_of_set_self hf hset, ?_, ?_, by
      simp only [List.length_append, List.length_singleton] at htot
      omega⟩
  · intro k hk
    exact edgeListAt_of_set_ne hf hset hk
  · exact mem_triples_of_set_append hf hset

/-- A duplicate `addEdgeHelper` insertion mutates nothing and reports
`inserted = false`. -/
theorem addEdgeHelper_value_dup {W : Bool} {g : Graph V} {f t : Nat} {w : Int}
    {node : VertexNode V} (hf : g.vertex_node_list[f]? = some node)
    (hm : ∃ e ∈ node.edge_list, e.dest = t) :
    (addEdgeHelper W g f t w).2 = g ∧ (addEdgeHelper W g f t w).1.2 = false := by
  obtain ⟨s, e, hr, -, -, -⟩ := addEdgeHelper_mem (w := w) (W := W) hf hm
  rw [hr]
  exact ⟨rfl, rfl⟩

/-- Everything the later proofs need about one undirected `addEdge` call that
inserts a fresh edge between two distinct vertices: both endpoint records
exist afterwards, the mirror record `b → a` was inserted first, the primary
record `a → b` last, the returned cursor/flag reflect the primary insertion,
and the observable edge set grows by exactly the two mirrored records. -/
theorem addEdgeU_fresh_spec {W : Bool} {veq : V → V → Bool}
    (heq : ∀ x y, veq x y = true ↔ x = y) {g : Graph V} (hwf : WF g)
    {a b : V} {w : Int} (hab : a ≠ b)
    (hpab : ¬ PairMem g a b) (hpba : ¬ PairMem g b a) :
    ∃ ia ib La Lb,
      ia ≠ ib ∧
      (addEdge false W veq g (a, b, w)).1.2 = true ∧
      (addEdge false W veq g (a, b, w)).1.1 = ⟨some ia, some La.length⟩ ∧
      findVertex veq (addEdge false W veq g (a, b, w)).2 a = some ia ∧
      findVertex veq (addEdge false W veq g (a, b, w)).2 b = some ib ∧
      valAt (addEdge false W veq g (a, b, w)).2 ia = a ∧
      valAt (addEdge false W veq g (a, b, w)).2 ib = b ∧
      edgeListAt (addEdge false W veq g (a, b, w)).2 ia =
        La ++ [⟨setEdgeWeight W w, ib⟩] ∧
      (∀ e ∈ La, e.dest ≠ ib) ∧
      edgeListAt (addEdge false W veq g (a, b, w)).2 ib =
        Lb ++ [⟨setEdgeWeight W w, ia⟩] ∧
      (∀ e ∈ Lb, e.dest ≠ ia) ∧
      (∀ tr, tr ∈ triples (addEdge false W veq g (a, b, w)).2 ↔
        tr ∈ triples g ∨ tr = (b, a, setEdgeWeight W w) ∨ tr = (a, b, setEdgeWeight W w)) ∧
      (∀ x, x ∈ vals (addEdge false W veq g (a, b, w)).2 ↔ x ∈ vals g ∨ x = a ∨ x = b) ∧
      totalEdgeRecords (addEdge false W veq g (a, b, w)).2 = totalEdgeRecords g + 2 ∧
      WF (addEdge false W veq g (a, b, w)).2 := by
  have hres : addEdge false W veq g (a, b, w) =
      addEdgeHelper W (addEdgeHelper W (addVertex veq (addVertex veq g a).2 b).2
          (addVertex veq (addVertex veq g a).2 b).1.1 (addVertex veq g a).1.1 w).2
        (addVertex veq g a).1.1 (addVertex veq (addVertex veq g a).2 b).1.1 w := rfl
  obtain ⟨hwfA, haA, hfaA, hmemA, htrA, htotA, hpreA, -, -⟩ := addVertex_value_spec heq hwf a
  obtain ⟨hwf2, hb2, hfb2, hmem2, htr2, htot2, hpre2, -, -⟩ := addVertex_value_spec heq hwfA b
  set ia := (addVertex veq g a).1.1 with hia_def
  set gA := (addVertex veq g a).2 with hgA_def
  set ib := (addVertex veq gA b).1.1 with hib_def
  set g2 := (addVertex veq gA b).2 with hg2_def
  obtain ⟨ha2, hfa2⟩ := first_occ_mono hpre2 haA hfaA
  have hiaib : ia ≠ ib := by
    intro hc
    rw [hc, hb2] at ha2
    exact hab (Option.some_inj.mp ha2).symm
  have hialt : ia < g2.vertex_node_list.length := by
    have := (List.getElem?_eq_some.mp ha2).1
    rwa [length_vals] at this
  have hvalg2a : valAt g2 ia = a := valAt_of_vals_getElem? ha2
  have hvalg2b : valAt g2 ib = b := valAt_of_vals_getElem? hb2
  obtain ⟨nodeB, hnodeB, hnodeBv⟩ := vals_getElem?_iff.mp hb2
  have hpba2 : ¬ PairMem g2 b a := by
    simp only [PairMem, htr2, htrA]
    exact hpba
  have hpab2 : ¬ PairMem g2 a b := by
    simp only [PairMem, htr2, htrA]
    exact hpab
  have hnoB : ∀ e ∈ nodeB.edge_list, e.dest ≠ ia := by
    intro e he hc
    apply hpba2
    rw [pairMem_iff_record hwf2 hb2 ha2, edgeListAt_of_getElem? hnodeB]
    exact ⟨e, he, hc⟩
  obtain ⟨hcurM, hwf3, hvals3, hvalAt3, hlistM, hlistMne, htrM, htotM⟩ :=
    addEdgeHelper_value_fresh (w := w) (W := W) hwf2 hnodeB hialt hnoB
  set g3 := (addEdgeHelper W g2 ib ia w).2 with hg3_def
  have ha3 : (vals g3)[ia]? = some a := by rw [hvals3]; exact ha2
  have hb3 : (vals g3)[ib]? = some b := by rw [hvals3]; exact hb2
  obtain ⟨nodeA, hnodeA, hnodeAv⟩ := vals_getElem?_iff.mp ha3
  have hpab3 : ¬ PairMem g3 a b := by
    rintro ⟨u, hu⟩
    rcases (htrM _).mp hu with hu | hval
    · exact hpab2 ⟨u, hu⟩
    · have : a = b := by
        have h1 : a = nodeB.vertex := (Prod.ext_iff.mp hval).1
        rw [h1, hnodeBv]
      exact hab this
  have hnoA : ∀ e ∈ nodeA.edge_list, e.dest ≠ ib := by
    intro e he hc
    apply hpab3
    rw [pairMem_iff_record hwf3 ha3 hb3, edgeListAt_of_getElem? hnodeA]
    exact ⟨e, he, hc⟩
  have hiblt3 : ib < g3.vertex_node_list.length := by
    have := (List.getElem?_eq_some.mp hb3).1
    rwa [length_vals] at this
  obtain ⟨hcurP, hwf4, hvals4, hvalAt4, hlistP, hlistPne, htrP, htotP⟩ :=
    addEdgeHelper_value_fresh (w := w) (W := W) hwf3 hnodeA hiblt3 hnoA
  set g4 := (addEdgeHelper W g3 ia ib w).2 with hg4_def
  have ha4 : (vals g4)[ia]? = some a := by rw [hvals4]; exact ha3
  have hb4 : (vals g4)[ib]? = some b := by rw [hvals4]; exact hb3
  have hfa4 : ∀ j, j < ia → (vals g4)[j]? ≠ some a := by
    intro j hj
    rw [hvals4, hvals3]
    exact hfa2 j hj
  have hfb4 : ∀ j, j < ib → (vals g4)[j]? ≠ some b := by
    intro j hj
    rw [hvals4, hvals3]
    exact hfb2 j hj
  have hvalg4a : valAt g4 ia = a := valAt_of_vals_getElem? ha4
  have hvalg4b : valAt g4 ib = b := valAt_of_vals_getElem? hb4
  refine ⟨ia, ib, nodeA.edge_list, nodeB.edge_list, hiaib, ?_, ?_, ?_, ?_, ?_, ?_,
    ?_, hnoA, ?_, hnoB, ?_, ?_, ?_, ?_⟩
  · rw [hres, hcurP]
  · rw [hres, hcurP]
  · rw [hres]
    obtain ⟨i, hfv, hvi, hfirst⟩ :=
      findVertex_spec_mem heq (g := g4) (List.getElem?_mem ha4)
    rwa [first_getElem?_unique hvi hfirst ha4 hfa4] at hfv
  · rw [hres]
    obtain ⟨i, hfv, hvi, hfirst⟩ :=
      findVertex_spec_mem heq (g := g4) (List.getElem?_mem hb4)
    rwa [first_getElem?_unique hvi hfirst hb4 hfb4] at hfv
  · rw [hres]; exact hvalg4a
  · rw [hres]; exact hvalg4b
  · rw [hres]; exact hlistP
  · rw [hres, hlistPne ib (Ne.symm hiaib)]
    exact hlistM
  · rw [hres]
    intro tr
    rw [htrP tr]
    have hmir : (nodeA.vertex, valAt g3 ib, setEdgeWeight W w) = (a, b, setEdgeWeight W w) := by
      rw [hnodeAv, hvalAt3, hvalg2b]
    rw [hmir]
    constructor
    · rintro (h | rfl)
      · rcases (htrM tr).mp h with h | rfl
        · rw [htr2, htrA] at h
          exact Or.inl h
        · refine Or.inr (Or.inl ?_)
          rw [hnodeBv, hvalg2a]
      · exact Or.inr (Or.inr rfl)
    · rintro (h | rfl | rfl)
      · refine Or.inl ((htrM tr).mpr (Or.inl ?_))
        rw [htr2, htrA]
        exact h
      · refine Or.inl ((htrM _).mpr (Or.inr ?_))
        rw [hnodeBv, hvalg2a]
      · exact Or.inr rfl
  · rw [hres]
    intro x
    have : vals g4 = vals g2 := by rw [hvals4, hvals3]
    rw [this, hmem2 x, hmemA x]
    exact or_assoc
  · rw [hres, htotP, htotM, htot2, htotA]
  · rw [hres]; exact hwf4

/-- Undirected `addEdge` of a self-loop `(u, u)` that is not yet present: the
mirror insertion appends the single new record, the primary insertion then
reports it as a duplicate, so the call returns `inserted = false` and appends
exactly one record with destination `u` to `u`'s edge list. -/
theorem addEdgeU_selfloop_spec {W : Bool} {veq : V → V → Bool}
    (heq : ∀ x y, veq x y = true ↔ x = y) {g : Graph V} (hwf : WF g)
    {u : V} {w : Int} (hp : ¬ PairMem g u u) :
    ∃ iu,
      (addEdge false W veq g (u, u, w)).1.2 = false ∧
      findVertex veq (addEdge false W veq g (u, u, w)).2 u = some iu ∧
      valAt (addEdge false W veq g (u, u, w)).2 iu = u ∧
      edgeListAt (addEdge false W veq g (u, u, w)).2 iu =
        (match findVertex veq g u with
         | some i => edgeListAt g i
         | none => []) ++ [⟨setEdgeWeight W w, iu⟩] ∧
      (∀ tr, tr ∈ triples (addEdge false W veq g (u, u, w)).2 ↔
        tr ∈ triples g ∨ tr = (u, u, setEdgeWeight W w)) ∧
      (∀ x, x ∈ vals (addEdge false W veq g (u, u, w)).2 ↔ x ∈ vals g ∨ x = u) ∧
      totalEdgeRecords (addEdge false W veq g (u, u, w)).2 = totalEdgeRecords g + 1 ∧
      WF (addEdge false W veq g (u, u, w)).2 := by
  have hres : addEdge false W veq g (u, u, w) =
      addEdgeHelper W (addEdgeHelper W (addVertex veq (addVertex veq g u).2 u).2
          (addVertex veq (addVertex veq g u).2 u).1.1 (addVertex veq g u).1.1 w).2
        (addVertex veq g u).1.1 (addVertex veq (addVertex veq g u).2 u).1.1 w := rfl
  obtain ⟨hwfA, haA, hfaA, hmemA, htrA, htotA, hpreA, hunchA, hlistA⟩ :=
    addVertex_value_spec heq hwf u
  obtain ⟨hwf2, hb2, hfb2, hmem2, htr2, htot2, hpre2, hunch2, hlist2⟩ :=
    addVertex_value_spec heq hwfA u
  set ia := (addVertex veq g u).1.1 with hia_def
  set gA := (addVertex veq g u).2 with hgA_def
  set ib := (addVertex veq gA u).1.1 with hib_def
  set g2 := (addVertex veq gA u).2 with hg2_def
  obtain ⟨ha2, hfa2⟩ := first_occ_mono hpre2 haA hfaA
  have hbia : ib = ia := first_getElem?_unique hb2 hfb2 ha2 hfa2
  rw [hbia] at hres
  have huA : u ∈ vals gA := List.getElem?_mem haA
  have hg2gA : g2 = gA := hunch2 huA
  obtain ⟨nodeU, hnodeU, hnodeUv⟩ := vals_getElem?_iff.mp ha2
  have hnodeUel : nodeU.edge_list =
      (match findVertex veq g u with
       | some i => edgeListAt g i
       | none => []) := by
    rw [← edgeListAt_of_getElem? hnodeU, hg2gA]
    exact hlistA
  have hpg2 : ¬ PairMem g2 u u := by
    simp only [PairMem, htr2, htrA]
    exact hp
  have hno : ∀ e ∈ nodeU.edge_list, e.dest ≠ ia := by
    intro e he hc
    apply hpg2
    rw [pairMem_iff_record hwf2 ha2 ha2, edgeListAt_of_getElem? hnodeU]
    exact ⟨e, he, hc⟩
  have hialt : ia < g2.vertex_node_list.length := by
    have := (List.getElem?_eq_some.mp ha2).1
    rwa [length_vals] at this
  obtain ⟨hcurM, hwf3, hvals3, hvalAt3, hlistM, hlistMne, htrM, htotM⟩ :=
    addEdgeHelper_value_fresh (w := w) (W := W) hwf2 hnodeU hialt hno
  set g3 := (addEdgeHelper W g2 ia ia w).2 with hg3_def
  have ha3 : (vals g3)[ia]? = some u := by rw [hvals3]; exact ha2
  have hfa3 : ∀ j, j < ia → (vals g3)[j]? ≠ some u := by
    intro j hj
    rw [hvals3]
    exact hfa2 j hj
  obtain ⟨nodeU3, hnodeU3, hnodeU3v⟩ := vals_getElem?_iff.mp ha3
  have hnodeU3el : nodeU3.edge_list = nodeU.edge_list ++ [⟨setEdgeWeight W w, ia⟩] := by
    rw [← edgeListAt_of_getElem? hnodeU3]
    exact hlistM
  have hmem3 : ∃ e ∈ nodeU3.edge_list, e.dest = ia := by
    refine ⟨⟨setEdgeWeight W w, ia⟩, ?_, rfl⟩
    rw [hnodeU3el]
    exact List.mem_append_right _ (List.mem_singleton.mpr rfl)
  have hdup := addEdgeHelper_value_dup (w := w) (W := W) hnodeU3 hmem3
  refine ⟨ia, ?_, ?_, ?_, ?_, ?_, ?_, ?_, ?_⟩
  · rw [hres]
    exact hdup.2
  · rw [hres, hdup.1]
    obtain ⟨i, hfv, hvi, hfirst⟩ := findVertex_spec_mem heq (g := g3) (List.getElem?_mem ha3)
    rwa [first_getElem?_unique hvi hfirst ha3 hfa3] at hfv
  · rw [hres, hdup.1]
    exact valAt_of_vals_getElem? ha3
  · rw [hres, hdup.1, hlistM, hnodeUel]
  · rw [hres, hdup.1]
    intro tr
    rw [htrM tr]
    have : (nodeU.vertex, valAt g2 ia, setEdgeWeight W w) = (u, u, setEdgeWeight W w) := by
      rw [hnodeUv, valAt_of_vals_getElem? ha2]
    rw [this, htr2, htrA]
  · rw [hres, hdup.1]
    intro x
    rw [hvals3, hmem2 x, hmemA x]
    constructor
    · rintro ((h | rfl) | rfl)
      · exact Or.inl h
      · exact Or.inr rfl
      · exact Or.inr rfl
    · rintro (h | rfl)
      · exact Or.inl (Or.inl h)
      · exact Or.inr rfl
  · rw [hres, hdup.1, htotM, htot2, htotA]
  · rw [hres, hdup.1]
    exact hwf3

/-- Undirected `addEdge` of an edge already present in both directions:
nothing is mutated and `inserted = false` is returned. -/
theorem addEdgeU_dup_spec {W : Bool} {veq : V → V → Bool}
    (heq : ∀ x y, veq x y = true ↔ x = y) {g : Graph V} (hwf : WF g)
    {a b : V} {w : Int} (hpab : PairMem g a b) (hpba : PairMem g b a) :
    (addEdge false W veq g (a, b, w)).2 = g ∧
    (addEdge false W veq g (a, b, w)).1.2 = false := by
  have hres : addEdge false W veq g (a, b, w) =
      addEdgeHelper W (addEdgeHelper W (addVertex veq (addVertex veq g a).2 b).2
          (addVertex veq (addVertex veq g a).2 b).1.1 (addVertex veq g a).1.1 w).2
        (addVertex veq g a).1.1 (addVertex veq (addVertex veq g a).2 b).1.1 w := rfl
  have hamem : a ∈ vals g := (pairMem_endpoints hwf hpab).1
  have hbmem : b ∈ vals g := (pairMem_endpoints hwf hpab).2
  obtain ⟨ia0, hrA, haidx, hfaidx⟩ := addVertex_spec_mem heq hamem
  obtain ⟨ib0, hrB, hbidx, hfbidx⟩ := addVertex_spec_mem heq hbmem
  obtain ⟨nodeA, hnodeA, hnodeAv⟩ := vals_getElem?_iff.mp haidx
  obtain ⟨nodeB, hnodeB, hnodeBv⟩ := vals_getElem?_iff.mp hbidx
  have hmB : ∃ e ∈ nodeB.edge_list, e.dest = ia0 := by
    rw [← edgeListAt_of_getElem? hnodeB]
    exact (pairMem_iff_record hwf hbidx haidx).mp hpba
  have hmA : ∃ e ∈ nodeA.edge_list, e.dest = ib0 := by
    rw [← edgeListAt_of_getElem? hnodeA]
    exact (pairMem_iff_record hwf haidx hbidx).mp hpab
  have hdupM := addEdgeHelper_value_dup (w := w) (W := W) hnodeB hmB
  have hdupP := addEdgeHelper_value_dup (w := w) (W := W) hnodeA hmA
  constructor
  · rw [hres]
    simp only [hrA, hrB]
    rw [hdupM.1]
    exact hdupP.1
  · rw [hres]
    simp only [hrA, hrB]
    rw [hdupM.1]
    exact hdupP.2

/-- Directed `addEdge` of an ordered pair not yet present (the two endpoint
values may coincide): exactly one record `a → b` is appended, and the returned
cursor/flag reflect it. -/
theorem addEdgeD_fresh_spec {W : Bool} {veq : V → V → Bool}
    (heq : ∀ x y, veq x y = true ↔ x = y) {g : Graph V} (hwf : WF g)
    {a b : V} {w : Int} (hpab : ¬ PairMem g a b) :
    ∃ ia ib La,
      (addEdge true W veq g (a, b, w)).1.2 = true ∧
      (addEdge true W veq g (a, b, w)).1.1 = ⟨some ia, some La.length⟩ ∧
      findVertex veq (addEdge true W veq g (a, b, w)).2 a = some ia ∧
      findVertex veq (addEdge true W veq g (a, b, w)).2 b = some ib ∧
      valAt (addEdge true W veq g (a, b, w)).2 ia = a ∧
      valAt (addEdge true W veq g (a, b, w)).2 ib = b ∧
      edgeListAt (addEdge true W veq g (a, b, w)).2 ia =
        La ++ [⟨setEdgeWeight W w, ib⟩] ∧
      (∀ e ∈ La, e.dest ≠ ib) ∧
      (∀ tr, tr ∈ triples (addEdge true W veq g (a, b, w)).2 ↔
        tr ∈ triples g ∨ tr = (a, b, setEdgeWeight W w)) ∧
      (∀ x, x ∈ vals (addEdge true W veq g (a, b, w)).2 ↔ x ∈ vals g ∨ x = a ∨ x = b) ∧
      totalEdgeRecords (addEdge true W veq g (a, b, w)).2 = totalEdgeRecords g + 1 ∧
      WF (addEdge true W veq g (a, b, w)).2 := by
  have hres : addEdge true W veq g (a, b, w) =
      addEdgeHelper W (addVertex veq (addVertex veq g a).2 b).2
        (addVertex veq g a).1.1 (addVertex veq (addVertex veq g a).2 b).1.1 w := rfl
  obtain ⟨hwfA, haA, hfaA, hmemA, htrA, htotA, hpreA, -, -⟩ := addVertex_value_spec heq hwf a
  obtain ⟨hwf2, hb2, hfb2, hmem2, htr2, htot2, hpre2, -, -⟩ := addVertex_value_spec heq hwfA b
  set ia := (addVertex veq g a).1.1 with hia_def
  set gA := (addVertex veq g a).2 with hgA_def
  set ib := (addVertex veq gA b).1.1 with hib_def
  set g2 := (addVertex veq gA b).2 with hg2_def
  obtain ⟨ha2, hfa2⟩ := first_occ_mono hpre2 haA hfaA
  have hialt : ia < g2.vertex_node_list.length := by
    have := (List.getElem?_eq_some.mp ha2).1
    rwa [length_vals] at this
  have hvalg2a : valAt g2 ia = a := valAt_of_vals_getElem? ha2
  have hvalg2b : valAt g2 ib = b := valAt_of_vals_getElem? hb2
  have hiblt : ib < g2.vertex_node_list.length := by
    have := (List.getElem?_eq_some.mp hb2).1
    rwa [length_vals] at this
  obtain ⟨nodeA, hnodeA, hnodeAv⟩ := vals_getElem?_iff.mp ha2
  have hpab2 : ¬ PairMem g2 a b := by
    simp only [PairMem, htr2, htrA]
    exact hpab
  have hnoA : ∀ e ∈ nodeA.edge_list, e.dest ≠ ib := by
    intro e he hc
    apply hpab2
    rw [pairMem_iff_record hwf2 ha2 hb2, edgeListAt_of_getElem? hnodeA]
    exact ⟨e, he, hc⟩
  obtain ⟨hcurP, hwf4, hvals4, hvalAt4, hlistP, hlistPne, htrP, htotP⟩ :=
    addEdgeHelper_value_fresh (w := w) (W := W) hwf2 hnodeA hiblt hnoA
  set g4 := (addEdgeHelper W g2 ia ib w).2 with hg4_def
  have ha4 : (vals g4)[ia]? = some a := by rw [hvals4]; exact ha2
  have hb4 : (vals g4)[ib]? = some b := by rw [hvals4]; exact hb2
  have hfa4 : ∀ j, j < ia → (vals g4)[j]? ≠ some a := by
    intro j hj
    rw [hvals4]
    exact hfa2 j hj
  have hfb4 : ∀ j, j < ib → (vals g4)[j]? ≠ some b := by
    intro j hj
    rw [hvals4]
    exact hfb2 j hj
  refine ⟨ia, ib, nodeA.edge_list, ?_, ?_, ?_, ?_, ?_, ?_, ?_, hnoA, ?_, ?_, ?_, ?_⟩
  · rw [hres, hcurP]
  · rw [hres, hcurP]
  · rw [hres]
    obtain ⟨i, hfv, hvi, hfirst⟩ := findVertex_spec_mem heq (g := g4) (List.getElem?_mem ha4)
    rwa [first_getElem?_unique hvi hfirst ha4 hfa4] at hfv
  · rw [hres]
    obtain ⟨i, hfv, hvi, hfirst⟩ := findVertex_spec_mem heq (g := g4) (List.getElem?_mem hb4)
    rwa [first_getElem?_unique hvi hfirst hb4 hfb4] at hfv
  · rw [hres]
    exact valAt_of_vals_getElem? ha4
  · rw [hres]
    exact valAt_of_vals_getElem? hb4
  · rw [hres]
    exact hlistP
  · rw [hres]
    intro tr
    rw [htrP tr]
    have : (nodeA.vertex, valAt g2 ib, setEdgeWeight W w) = (a, b, setEdgeWeight W w) := by
      rw [hnodeAv, hvalg2b]
    rw [this, htr2, htrA]
  · rw [hres]
    intro x
    rw [hvals4, hmem2 x, hmemA x]
    exact or_assoc
  · rw [hres, htotP, htot2, htotA]
  · rw [hres]
    exact hwf4

/-- Directed `addEdge` of an ordered pair already present: nothing is mutated
and `inserted = false` is returned. -/
theorem addEdgeD_dup_spec {W : Bool} {veq : V → V → Bool}
    (heq : ∀ x y, veq x y = true ↔ x = y) {g : Graph V} (hwf : WF g)
    {a b : V} {w : Int} (hpab : PairMem g a b) :
    (addEdge true W veq g (a, b, w)).2 = g ∧
    (addEdge true W veq g (a, b, w)).1.2 = false := by
  have hres : addEdge true W veq g (a, b, w) =
      addEdgeHelper W (addVertex veq (addVertex veq g a).2 b).2
        (addVertex veq g a).1.1 (addVertex veq (addVertex veq g a).2 b).1.1 w := rfl
  have hamem : a ∈ vals g := (pairMem_endpoints hwf hpab).1
  have hbmem : b ∈ vals g := (pairMem_endpoints hwf hpab).2
  obtain ⟨ia0, hrA, haidx, hfaidx⟩ := addVertex_spec_mem heq hamem
  obtain ⟨ib0, hrB, hbidx, hfbidx⟩ := addVertex_spec_mem heq hbmem
  obtain ⟨nodeA, hnodeA, hnodeAv⟩ := vals_getElem?_iff.mp haidx
  have hmA : ∃ e ∈ nodeA.edge_list, e.dest = ib0 := by
    rw [← edgeListAt_of_getElem? hnodeA]
    exact (pairMem_iff_record hwf haidx hbidx).mp hpab
  have hdupP := addEdgeHelper_value_dup (w := w) (W := W) hnodeA hmA
  constructor
  · rw [hres]
    simp only [hrA, hrB]
    exact hdupP.1
  · rw [hres]
    simp only [hrA, hrB]
    exact hdupP.2

theorem scanAux_last {α : Type} (p : α → Bool) :
    ∀ (L : List α) (x : α), (∀ e ∈ L, p e = false) → scanAux p (L ++ [x]) = L.length := by
  intro L
  induction L with
  | nil => intro x _; simp [scanAux]
  | cons y ys ih =>
    intro x hno
    have hpy : p y = false := hno y (List.mem_cons_self y ys)
    cases ys with
    | nil => simp [scanAux, hpy]
    | cons z zs =>
      have hih := ih x (fun e he => hno e (List.mem_cons_of_mem y he))
      simp only [List.cons_append] at hih ⊢
      simp only [scanAux, hpy, Bool.false_eq_true, if_false]
      rw [hih]
      simp

/-- `findEdge` on a pair whose source list ends with the unique matching
record: the scan stops exactly there and the guard accepts it. -/
theorem findEdge_found {veq : V → V → Bool} {g : Graph V} {a b : V} {ia ib : Nat}
    {L : List EdgeNode} {u : Int}
    (hia : findVertex veq g a = some ia) (hib : findVertex veq g b = some ib)
    (hL : edgeListAt g ia = L ++ [⟨u, ib⟩]) (hno : ∀ e ∈ L, e.dest ≠ ib) :
    findEdge veq g a b = ⟨some ia, some L.length⟩ ∧
    edgeIterDeref g (findEdge veq g a b) = .ok (valAt g ia, valAt g ib, u) := by
  rcases hnode : g.vertex_node_list[ia]? with _ | node
  · exfalso
    have : edgeListAt g ia = [] := by rw [edgeListAt, hnode]; rfl
    rw [hL] at this
    exact absurd this (by simp)
  have hLnode : node.edge_list = L ++ [⟨u, ib⟩] := by
    rw [← edgeListAt_of_getElem? hnode]
    exact hL
  have hno' : ∀ e ∈ L, (e.dest == ib) = false := by
    intro e he
    simpa using hno e he
  have h1 : findEdgeHelper g (some ia) (some ib) = some L.length := by
    simp only [findEdgeHelper, hnode, hLnode]
    rw [if_neg (by simp), findEdgeHelperAux, scanAux_last _ _ _ hno']
  have h2 : (edgeListAt g ia)[L.length]? = some ⟨u, ib⟩ := by
    rw [hL]
    exact List.getElem?_concat_length _ _
  have h3 : findEdge veq g a b = ⟨some ia, some L.length⟩ := by
    simp only [findEdge, hia, hib, h1, h2]
    rw [if_neg (by simp)]
  refine ⟨h3, ?_⟩
  rw [h3]
  simp only [edgeIterDeref, getTuple, h2]
  rfl

/-! ### Fixtures for the edge-insertion claims -/

/-- Undirected weighted fixture holding the single edge `1 – 2` of weight 5. -/
def gC : Graph Nat := graphFromEdges false true natEq [(1, 2, 5)]

theorem gC_WF : WF gC := ⟨by decide, by decide, by decide⟩

theorem gC_triples : triples gC = [(1, 2, 5), (2, 1, 5)] := by decide

theorem gC_noloop : ¬ PairMem gC 1 1 := by
  rintro ⟨u, hu⟩
  rw [gC_triples] at hu
  simp at hu

theorem gC_nopair34 : ¬ PairMem gC 3 4 := by
  rintro ⟨u, hu⟩
  rw [gC_triples] at hu
  simp at hu

theorem gC_nopair43 : ¬ PairMem gC 4 3 := by
  rintro ⟨u, hu⟩
  rw [gC_triples] at hu
  simp at hu

/-! ### C8 -/

/-- C8: for every undirected graph in which `u` has no self-loop record,
`addEdge (u, u, w)` returns `inserted = false` even though it appends exactly
one new edge record with destination `u` to `u`'s edge list (the mirror
insertion creates the record, the primary insertion reports it as a
duplicate); the total record count grows by exactly one. -/
theorem C8_selfloop_inserted_false {W : Bool} {veq : V → V → Bool}
    (heq : ∀ x y, veq x y = true ↔ x = y) {g : Graph V} (hwf : WF g)
    {u : V} {w : Int} (hp : ¬ PairMem g u u) :
    ∃ iu,
      (addEdge false W veq g (u, u, w)).1.2 = false ∧
      findVertex veq (addEdge false W veq g (u, u, w)).2 u = some iu ∧
      edgeListAt (addEdge false W veq g (u, u, w)).2 iu =
        (match findVertex veq g u with
         | some i => edgeListAt g i
         | none => []) ++ [⟨setEdgeWeight W w, iu⟩] ∧
      totalEdgeRecords (addEdge false W veq g (u, u, w)).2 = totalEdgeRecords g + 1 := by
  obtain ⟨iu, h1, h2, h3, h4, h5, h6, h7, h8⟩ := addEdgeU_selfloop_spec heq hwf hp
  exact ⟨iu, h1, h2, h4, h7⟩

/-- Witness for C8: inserting the self-loop `(1, 1)` into the fixture `gC`
returns `inserted = false` while appending one record to vertex 1's list. -/
theorem C8_selfloop_inserted_false_witness :
    (WF gC ∧ ¬ PairMem gC 1 1) ∧
    (∃ iu,
      (addEdge false true natEq gC (1, 1, 4)).1.2 = false ∧
      findVertex natEq (addEdge false true natEq gC (1, 1, 4)).2 1 = some iu ∧
      edgeListAt (addEdge false true natEq gC (1, 1, 4)).2 iu =
        (match findVertex natEq gC 1 with
         | some i => edgeListAt gC i
         | none => []) ++ [⟨setEdgeWeight true 4, iu⟩] ∧
      totalEdgeRecords (addEdge false true natEq gC (1, 1, 4)).2 =
        totalEdgeRecords gC + 1) :=
  ⟨⟨gC_WF, gC_noloop⟩, C8_selfloop_inserted_false natEq_iff gC_WF gC_noloop⟩

/-! ### C2 -/

/-- Counterexample to C2 as stated: on an undirected graph, inserting the
single distinct unordered edge `(0, 0)` (a self-loop) into an empty graph
stores one edge record, not `2 × 1`. -/
theorem C2_counterexample :
    totalEdgeRecords (addEdge false false natEq (emptyGraph : Graph Nat) (0, 0, 0)).2 = 1 ∧
    totalEdgeRecords (addEdge false false natEq (emptyGraph : Graph Nat) (0, 0, 0)).2 ≠
      2 * 1 := by
  decide

/-- C2 as amended: on a well-formed undirected graph each insertion of a fresh
edge between distinct vertices adds exactly two records, each insertion of a
fresh self-loop adds exactly one record (not two), and re-insertion of a
present edge adds none — so the store holds twice the distinct non-loop edges
plus once the distinct self-loops. -/
theorem C2_amended {W : Bool} {veq : V → V → Bool}
    (heq : ∀ x y, veq x y = true ↔ x = y) {g : Graph V} (hwf : WF g) :
    (∀ (a b : V) (w : Int), a ≠ b → ¬ PairMem g a b → ¬ PairMem g b a →
      totalEdgeRecords (addEdge false W veq g (a, b, w)).2 = totalEdgeRecords g + 2) ∧
    (∀ (u : V) (w : Int), ¬ PairMem g u u →
      totalEdgeRecords (addEdge false W veq g (u, u, w)).2 = totalEdgeRecords g + 1) ∧
    (∀ (a b : V) (w : Int), PairMem g a b → PairMem g b a →
      totalEdgeRecords (addEdge false W veq g (a, b, w)).2 = totalEdgeRecords g) := by
  refine ⟨?_, ?_, ?_⟩
  · intro a b w hab h1 h2
    obtain ⟨ia, ib, La, Lb, hiaib, hflag, hcur, hfva, hfvb, hvala, hvalb, hlistA, hnoA,
      hlistB, hnoB, htr, hvalsm, htot, hwf'⟩ := addEdgeU_fresh_spec heq hwf hab h1 h2
    exact htot
  · intro u w hp
    obtain ⟨iu, h1, h2, h3, h4, h5, h6, h7, h8⟩ := addEdgeU_selfloop_spec heq hwf hp
    exact h7
  · intro a b w h1 h2
    rw [(addEdgeU_dup_spec heq hwf h1 h2).1]

/-- Witness for C2's amended statement on the fixture `gC` (two records):
a fresh edge `(3, 4)` brings the total to 4, a fresh self-loop `(1, 1)`
brings it to 3, and re-inserting `(1, 2)` leaves it at 2. -/
theorem C2_amended_witness :
    (WF gC ∧ (3 : Nat) ≠ 4 ∧ ¬ PairMem gC 3 4 ∧ ¬ PairMem gC 4 3 ∧
      ¬ PairMem gC 1 1 ∧ PairMem gC 1 2 ∧ PairMem gC 2 1) ∧
    totalEdgeRecords (addEdge false true natEq gC (3, 4, 7)).2 = totalEdgeRecords gC + 2 ∧
    totalEdgeRecords (addEdge false true natEq gC (1, 1, 4)).2 = totalEdgeRecords gC + 1 ∧
    totalEdgeRecords (addEdge false true natEq gC (1, 2, 9)).2 = totalEdgeRecords gC :=
  ⟨⟨gC_WF, by decide, gC_nopair34, gC_nopair43, gC_noloop,
    ⟨5, by rw [gC_triples]; simp⟩, ⟨5, by rw [gC_triples]; simp⟩⟩,
   (C2_amended natEq_iff gC_WF).1 3 4 7 (by decide) gC_nopair34 gC_nopair43,
   (C2_amended natEq_iff gC_WF).2.1 1 4 gC_noloop,
   (C2_amended natEq_iff gC_WF).2.2 1 2 9 ⟨5, by rw [gC_triples]; simp⟩
     ⟨5, by rw [gC_triples]; simp⟩⟩

/-! ### C3 -/

/-- Counterexample to C3 as stated: with the edge `0 – 1` of weight 1 already
present, `addEdge((0, 1, 2))` does not update the weight, so `findEdge((0,1))`
dereferences to the old weight 1, not the inserted `w = 2`. -/
theorem C3_counterexample :
    edgeIterDeref
        (addEdge false true natEq (graphFromEdges false true natEq [(0, 1, 1)]) (0, 1, 2)).2
        (findEdge natEq
          (addEdge false true natEq (graphFromEdges false true natEq [(0, 1, 1)]) (0, 1, 2)).2
          0 1) =
      .ok (0, 1, 1) ∧ (1 : Int) ≠ 2 :=
  ⟨rfl, by decide⟩

/-- C3 as amended: for a well-formed undirected graph and distinct values
`a ≠ b` with no edge between them in either direction, after `addEdge (a,b,w)`
both `findEdge (a,b)` and `findEdge (b,a)` return non-end cursors which (in a
weighted graph) dereference to the inserted weight `w`; the mirror `b → a` is
inserted first and the returned (cursor, inserted) pair reflects only the
`a → b` insertion: the flag is `true` and the cursor dereferences to the new
`a → b` record. -/
theorem C3_undirected_mirroring {W : Bool} {veq : V → V → Bool}
    (heq : ∀ x y, veq x y = true ↔ x = y) {g : Graph V} (hwf : WF g)
    {a b : V} {w : Int} (hab : a ≠ b)
    (hpab : ¬ PairMem g a b) (hpba : ¬ PairMem g b a) :
    edgeIterBeq (findEdge veq (addEdge false W veq g (a, b, w)).2 a b) edgeEnd = false ∧
    edgeIterBeq (findEdge veq (addEdge false W veq g (a, b, w)).2 b a) edgeEnd = false ∧
    edgeIterDeref (addEdge false W veq g (a, b, w)).2
      (findEdge veq (addEdge false W veq g (a, b, w)).2 a b) =
      .ok (a, b, setEdgeWeight W w) ∧
    edgeIterDeref (addEdge false W veq g (a, b, w)).2
      (findEdge veq (addEdge false W veq g (a, b, w)).2 b a) =
      .ok (b, a, setEdgeWeight W w) ∧
    (W = true → setEdgeWeight W w = w) ∧
    (addEdge false W veq g (a, b, w)).1.2 = true ∧
    edgeIterDeref (addEdge false W veq g (a, b, w)).2 (addEdge false W veq g (a, b, w)).1.1 =
      .ok (a, b, setEdgeWeight W w) := by
  obtain ⟨ia, ib, La, Lb, hiaib, hflag, hcur, hfva, hfvb, hvala, hvalb, hlistA, hnoA,
    hlistB, hnoB, htr, hvalsm, htot, hwf'⟩ := addEdgeU_fresh_spec heq hwf hab hpab hpba
  obtain ⟨hfeAB, hdrAB⟩ := findEdge_found hfva hfvb hlistA hnoA
  obtain ⟨hfeBA, hdrBA⟩ := findEdge_found hfvb hfva hlistB hnoB
  refine ⟨?_, ?_, ?_, ?_, ?_, hflag, ?_⟩
  · rw [hfeAB]; rfl
  · rw [hfeBA]; rfl
  · rw [hdrAB, hvala, hvalb]
  · rw [hdrBA, hvala, hvalb]
  · intro hW
    rw [setEdgeWeight, if_pos hW]
  · rw [hcur, ← hfeAB, hdrAB, hvala, hvalb]

/-- Witness for C3's amended statement: inserting the fresh edge `(3, 4)` of
weight 7 into the fixture `gC`. -/
theorem C3_undirected_mirroring_witness :
    (WF gC ∧ (3 : Nat) ≠ 4 ∧ ¬ PairMem gC 3 4 ∧ ¬ PairMem gC 4 3) ∧
    (edgeIterBeq (findEdge natEq (addEdge false true natEq gC (3, 4, 7)).2 3 4) edgeEnd =
        false ∧
      edgeIterBeq (findEdge natEq (addEdge false true natEq gC (3, 4, 7)).2 4 3) edgeEnd =
        false ∧
      edgeIterDeref (addEdge false true natEq gC (3, 4, 7)).2
        (findEdge natEq (addEdge false true natEq gC (3, 4, 7)).2 3 4) =
        .ok (3, 4, setEdgeWeight true 7) ∧
      edgeIterDeref (addEdge false true natEq gC (3, 4, 7)).2
        (findEdge natEq (addEdge false true natEq gC (3, 4, 7)).2 4 3) =
        .ok (4, 3, setEdgeWeight true 7) ∧
      (true = true → setEdgeWeight true 7 = 7) ∧
      (addEdge false true natEq gC (3, 4, 7)).1.2 = true ∧
      edgeIterDeref (addEdge false true natEq gC (3, 4, 7)).2
        (addEdge false true natEq gC (3, 4, 7)).1.1 =
        .ok (3, 4, setEdgeWeight true 7)) :=
  ⟨⟨gC_WF, by decide, gC_nopair34, gC_nopair43⟩,
   C3_undirected_mirroring natEq_iff gC_WF (by decide) gC_nopair34 gC_nopair43⟩

/-! ### Facts about the triples of a well-formed graph -/

theorem triples_pair_unique {g : Graph V} (hwf : WF g) {x y : V} {u u' : Int}
    (h : (x, y, u) ∈ triples g) (h' : (x, y, u') ∈ triples g) : u = u' := by
  obtain ⟨ix, hx⟩ := List.mem_iff_getElem?.mp (pairMem_endpoints hwf ⟨u, h⟩).1
  obtain ⟨iy, hy⟩ := List.mem_iff_getElem?.mp (pairMem_endpoints hwf ⟨u, h⟩).2
  obtain ⟨e, he, hed, hew⟩ := (triple_mem_iff_record hwf hx hy).mp h
  obtain ⟨e', he', hed', hew'⟩ := (triple_mem_iff_record hwf hx hy).mp h'
  obtain ⟨vn, hvn, -⟩ := vals_getElem?_iff.mp hx
  rw [edgeListAt_of_getElem? hvn] at he he'
  have hee : e = e' :=
    List.inj_on_of_nodup_map (hwf.edges_nodup vn (List.getElem?_mem hvn)) he he'
      (by rw [hed, hed'])
  rw [← hew, ← hew', hee]

theorem mirrored_triples {g : Graph V} (hwf : WF g) (hm : Mirrored g) {x y : V} {u : Int}
    (h : (x, y, u) ∈ triples g) : (y, x, u) ∈ triples g := by
  rw [mem_triples_iff] at h
  obtain ⟨i, vn, hi, en, hen, hteq⟩ := h
  obtain ⟨h1, h2, h3⟩ : x = vn.vertex ∧ y = valAt g en.dest ∧ u = en.weight := by
    simpa [Prod.ext_iff] using hteq
  have hilt : i < g.vertex_node_list.length := (List.getElem?_eq_some.mp hi).1
  have hdlt : en.dest < g.vertex_node_list.length :=
    hwf.dest_lt vn (List.getElem?_mem hi) en hen
  obtain ⟨en', hen', hd', hw'⟩ := hm i hilt en (by rw [edgeListAt_of_getElem? hi]; exact hen)
  obtain ⟨vn', hvn'⟩ : ∃ z, g.vertex_node_list[en.dest]? = some z :=
    ⟨_, List.getElem?_eq_getElem hdlt⟩
  rw [mem_triples_iff]
  refine ⟨en.dest, vn', hvn', en', ?_, ?_⟩
  · rw [edgeListAt_of_getElem? hvn'] at hen'
    exact hen'
  · have hv1 : vn'.vertex = valAt g en.dest := by
      rw [valAt, hvn']
      rfl
    have hv2 : valAt g en'.dest = vn.vertex := by
      rw [hd', valAt, hi]
      rfl
    rw [h1, h2, h3, hv1, hv2, hw']

/-! ### The copy walk as a fold over the dereferenced triples -/

theorem foldl_flatMap {α β γ : Type} (l : List α) (f : α → List β) (step : γ → β → γ) :
    ∀ init : γ, (l.flatMap f).foldl step init =
      l.foldl (fun acc x => (f x).foldl step acc) init := by
  induction l with
  | nil => intro init; rfl
  | cons x xs ih =>
    intro init
    rw [List.flatMap_cons, List.foldl_append, List.foldl_cons, ih]

theorem assignCopy_eq_foldl (Directed Weighted : Bool) (veq : V → V → Bool)
    (g src : Graph V) :
    assignCopy Directed Weighted veq g src =
      (triples src).foldl (fun acc t => (addEdge Directed Weighted veq acc t).2)
        (emptyGraph : Graph V) := by
  rw [triples, foldl_flatMap]
  have hfun : (fun (acc : Graph V) (vn : VertexNode V) =>
      (vn.edge_list.map (fun en => (vn.vertex, valAt src en.dest, en.weight))).foldl
        (fun acc t => (addEdge Directed Weighted veq acc t).2) acc) =
      (fun (acc : Graph V) (vn : VertexNode V) =>
        vn.edge_list.foldl
          (fun acc2 en =>
            (addEdge Directed Weighted veq acc2 (vn.vertex, valAt src en.dest, en.weight)).2)
          acc) := by
    funext acc vn
    rw [List.foldl_map]
  rw [hfun]
  rfl

/-- The undirected copy walk: folding a list of edge tuples `Q` (all drawn
from a mirror-consistent, weight-unique universe `T`) over `addEdge` grows
the observable edge set by exactly the mirror-closure of `Q` and the vertex
set by exactly the endpoints of `Q`. -/
theorem foldU_spec {W : Bool} {veq : V → V → Bool} (heq : ∀ x y, veq x y = true ↔ x = y)
    (T : List (V × V × Int))
    (hTuniq : ∀ x y u u', ((x, y, u) ∈ T ∨ (y, x, u) ∈ T) →
      ((x, y, u') ∈ T ∨ (y, x, u') ∈ T) → u = u')
    (hTw : W = false → ∀ t ∈ T, t.2.2 = 0) :
    ∀ (Q : List (V × V × Int)) (acc : Graph V), (∀ q ∈ Q, q ∈ T) → WF acc →
      (∀ t ∈ triples acc, t ∈ T ∨ (t.2.1, t.1, t.2.2) ∈ T) →
      (∀ x y u, (x, y, u) ∈ triples acc → (y, x, u) ∈ triples acc) →
      WF (Q.foldl (fun h e => (addEdge false W veq h e).2) acc) ∧
      (∀ t, t ∈ triples (Q.foldl (fun h e => (addEdge false W veq h e).2) acc) ↔
        t ∈ triples acc ∨ ∃ q ∈ Q, t = q ∨ t = (q.2.1, q.1, q.2.2)) ∧
      (∀ x, x ∈ vals (Q.foldl (fun h e => (addEdge false W veq h e).2) acc) ↔
        x ∈ vals acc ∨ ∃ q ∈ Q, x = q.1 ∨ x = q.2.1) := by
  intro Q
  induction Q with
  | nil =>
    intro acc hQT hwf htin hmir
    refine ⟨hwf, ?_, ?_⟩ <;> intro t <;> simp
  | cons q rest ih =>
    rcases q with ⟨a, b, w⟩
    intro acc hQT hwf htin hmir
    rw [List.foldl_cons]
    have hqT : (a, b, w) ∈ T := hQT _ (List.mem_cons_self _ _)
    have hsw : setEdgeWeight W w = w := by
      rcases W with _ | _
      · have hw0 : w = 0 := hTw rfl (a, b, w) hqT
        rw [setEdgeWeight, hw0]
        simp
      · rw [setEdgeWeight]
        simp
    have hkey : WF (addEdge false W veq acc (a, b, w)).2 ∧
        (∀ t, t ∈ triples (addEdge false W veq acc (a, b, w)).2 ↔
          t ∈ triples acc ∨ t = (a, b, w) ∨ t = (b, a, w)) ∧
        (∀ x, x ∈ vals (addEdge false W veq acc (a, b, w)).2 ↔
          x ∈ vals acc ∨ x = a ∨ x = b) := by
      by_cases hdup : PairMem acc a b
      · obtain ⟨u0, hu0⟩ := hdup
        have hu0w : u0 = w := hTuniq a b u0 w (htin _ hu0) (Or.inl hqT)
        have hq_in : (a, b, w) ∈ triples acc := hu0w ▸ hu0
        have hmq_in : (b, a, w) ∈ triples acc := hmir _ _ _ hq_in
        have hdup' : PairMem acc a b := ⟨w, hq_in⟩
        have hdupB : PairMem acc b a := ⟨w, hmq_in⟩
        obtain ⟨hunch, -⟩ := addEdgeU_dup_spec heq hwf hdup' hdupB
        rw [hunch]
        refine ⟨hwf, ?_, ?_⟩
        · intro t
          constructor
          · exact fun h => Or.inl h
          · rintro (h | rfl | rfl)
            · exact h
            · exact hq_in
            · exact hmq_in
        · intro x
          have hab_mem := pairMem_endpoints hwf hdup'
          constructor
          · exact fun h => Or.inl h
          · rintro (h | rfl | rfl)
            · exact h
            · exact hab_mem.1
            · exact (pairMem_endpoints hwf hdupB).1
      · by_cases hab : a = b
        · subst hab
          obtain ⟨iu, hflag, hfv, hval, hlist, htr, hvalsm, htot, hwf'⟩ :=
            addEdgeU_selfloop_spec heq hwf hdup
          refine ⟨hwf', ?_, ?_⟩
          · intro t
            rw [htr t, hsw]
            constructor
            · rintro (h | rfl)
              · exact Or.inl h
              · exact Or.inr (Or.inl rfl)
            · rintro (h | rfl | rfl)
              · exact Or.inl h
              · exact Or.inr rfl
              · exact Or.inr rfl
          · intro x
            rw [hvalsm x]
            constructor
            · rintro (h | rfl)
              · exact Or.inl h
              · exact Or.inr (Or.inl rfl)
            · rintro (h | rfl | rfl)
              · exact Or.inl h
              · exact Or.inr rfl
              · exact Or.inr rfl
        · have hba : ¬ PairMem acc b a := by
            rintro ⟨u0, h0⟩
            exact hdup ⟨u0, hmir _ _ _ h0⟩
          obtain ⟨ia, ib, La, Lb, hiaib, hflag, hcur, hfva, hfvb, hvala, hvalb, hlistA,
            hnoA, hlistB, hnoB, htr, hvalsm, htot, hwf'⟩ :=
            addEdgeU_fresh_spec heq hwf hab hdup hba
          refine ⟨hwf', ?_, hvalsm⟩
          intro t
          rw [htr t, hsw]
          constructor
          · rintro (h | rfl | rfl)
            · exact Or.inl h
            · exact Or.inr (Or.inr rfl)
            · exact Or.inr (Or.inl rfl)
          · rintro (h | rfl | rfl)
            · exact Or.inl h
            · exact Or.inr (Or.inr rfl)
            · exact Or.inr (Or.inl rfl)
    obtain ⟨hwf1, htr1, hvals1⟩ := hkey
    have hQT' : ∀ q ∈ rest, q ∈ T := fun q hq => hQT q (List.mem_cons_of_mem _ hq)
    have htin' : ∀ t ∈ triples (addEdge false W veq acc (a, b, w)).2,
        t ∈ T ∨ (t.2.1, t.1, t.2.2) ∈ T := by
      intro t ht
      rcases (htr1 t).mp ht with h | rfl | rfl
      · exact htin t h
      · exact Or.inl hqT
      · exact Or.inr hqT
    have hmir' : ∀ x y u, (x, y, u) ∈ triples (addEdge false W veq acc (a, b, w)).2 →
        (y, x, u) ∈ triples (addEdge false W veq acc (a, b, w)).2 := by
      intro x y u h
      rcases (htr1 _).mp h with h | heq' | heq'
      · exact (htr1 _).mpr (Or.inl (hmir _ _ _ h))
      · obtain ⟨h1, h2, h3⟩ : x = a ∧ y = b ∧ u = w := by simpa [Prod.ext_iff] using heq'
        refine (htr1 _).mpr (Or.inr (Or.inr ?_))
        rw [h1, h2, h3]
      · obtain ⟨h1, h2, h3⟩ : x = b ∧ y = a ∧ u = w := by simpa [Prod.ext_iff] using heq'
        refine (htr1 _).mpr (Or.inr (Or.inl ?_))
        rw [h1, h2, h3]
    obtain ⟨hwfF, htrF, hvalsF⟩ := ih _ hQT' hwf1 htin' hmir'
    refine ⟨hwfF, ?_, ?_⟩
    · intro t
      rw [htrF t, htr1 t]
      simp only [List.mem_cons]
      constructor
      · rintro ((h | rfl | rfl) | ⟨q, hq, hp⟩)
        · exact Or.inl h
        · exact Or.inr ⟨(a, b, w), Or.inl rfl, Or.inl rfl⟩
        · exact Or.inr ⟨(a, b, w), Or.inl rfl, Or.inr rfl⟩
        · exact Or.inr ⟨q, Or.inr hq, hp⟩
      · rintro (h | ⟨q, (rfl | hq), hp⟩)
        · exact Or.inl (Or.inl h)
        · rcases hp with rfl | rfl
          · exact Or.inl (Or.inr (Or.inl rfl))
          · exact Or.inl (Or.inr (Or.inr rfl))
        · exact Or.inr ⟨q, hq, hp⟩
    · intro x
      rw [hvalsF x, hvals1 x]
      simp only [List.mem_cons]
      constructor
      · rintro ((h | hxa | hxb) | ⟨q, hq, hp⟩)
        · exact Or.inl h
        · exact Or.inr ⟨(a, b, w), Or.inl rfl, Or.inl hxa⟩
        · exact Or.inr ⟨(a, b, w), Or.inl rfl, Or.inr hxb⟩
        · exact Or.inr ⟨q, Or.inr hq, hp⟩
      · rintro (h | ⟨q, (rfl | hq), hp⟩)
        · exact Or.inl (Or.inl h)
        · rcases hp with rfl | rfl
          · exact Or.inl (Or.inr (Or.inl rfl))
          · exact Or.inl (Or.inr (Or.inr rfl))
        · exact Or.inr ⟨q, hq, hp⟩

/-- The directed copy walk: folding edge tuples over directed `addEdge` grows
the observable edge set by exactly the tuples themselves. -/
theorem foldD_spec {W : Bool} {veq : V → V → Bool} (heq : ∀ x y, veq x y = true ↔ x = y)
    (T : List (V × V × Int))
    (hTuniq : ∀ x y u u', (x, y, u) ∈ T → (x, y, u') ∈ T → u = u')
    (hTw : W = false → ∀ t ∈ T, t.2.2 = 0) :
    ∀ (Q : List (V × V × Int)) (acc : Graph V), (∀ q ∈ Q, q ∈ T) → WF acc →
      (∀ t ∈ triples acc, t ∈ T) →
      WF (Q.foldl (fun h e => (addEdge true W veq h e).2) acc) ∧
      (∀ t, t ∈ triples (Q.foldl (fun h e => (addEdge true W veq h e).2) acc) ↔
        t ∈ triples acc ∨ t ∈ Q) ∧
      (∀ x, x ∈ vals (Q.foldl (fun h e => (addEdge true W veq h e).2) acc) ↔
        x ∈ vals acc ∨ ∃ q ∈ Q, x = q.1 ∨ x = q.2.1) := by
  intro Q
  induction Q with
  | nil =>
    intro acc hQT hwf htin
    refine ⟨hwf, ?_, ?_⟩ <;> intro t <;> simp
  | cons q rest ih =>
    rcases q with ⟨a, b, w⟩
    intro acc hQT hwf htin
    rw [List.foldl_cons]
    have hqT : (a, b, w) ∈ T := hQT _ (List.mem_cons_self _ _)
    have hsw : setEdgeWeight W w = w := by
      rcases W with _ | _
      · have hw0 : w = 0 := hTw rfl (a, b, w) hqT
        rw [setEdgeWeight, hw0]
        simp
      · rw [setEdgeWeight]
        simp
    have hkey : WF (addEdge true W veq acc (a, b, w)).2 ∧
        (∀ t, t ∈ triples (addEdge true W veq acc (a, b, w)).2 ↔
          t ∈ triples acc ∨ t = (a, b, w)) ∧
        (∀ x, x ∈ vals (addEdge true W veq acc (a, b, w)).2 ↔
          x ∈ vals acc ∨ x = a ∨ x = b) := by
      by_cases hdup : PairMem acc a b
      · obtain ⟨u0, hu0⟩ := hdup
        have hu0w : u0 = w := hTuniq a b u0 w (htin _ hu0) hqT
        have hq_in : (a, b, w) ∈ triples acc := hu0w ▸ hu0
        have hdup' : PairMem acc a b := ⟨w, hq_in⟩
        obtain ⟨hunch, -⟩ := addEdgeD_dup_spec heq hwf hdup'
        rw [hunch]
        have hab_mem := pairMem_endpoints hwf hdup'
        refine ⟨hwf, ?_, ?_⟩
        · intro t
          constructor
          · exact fun h => Or.inl h
          · rintro (h | rfl)
            · exact h
            · exact hq_in
        · intro x
          constructor
          · exact fun h => Or.inl h
          · rintro (h | rfl | rfl)
            · exact h
            · exact hab_mem.1
            · exact hab_mem.2
      · obtain ⟨ia, ib, La, hflag, hcur, hfva, hfvb, hvala, hvalb, hlistA, hnoA,
          htr, hvalsm, htot, hwf'⟩ := addEdgeD_fresh_spec heq hwf hdup
        refine ⟨hwf', ?_, hvalsm⟩
        intro t
        rw [htr t, hsw]
    obtain ⟨hwf1, htr1, hvals1⟩ := hkey
    have hQT' : ∀ q ∈ rest, q ∈ T := fun q hq => hQT q (List.mem_cons_of_mem _ hq)
    have htin' : ∀ t ∈ triples (addEdge true W veq acc (a, b, w)).2, t ∈ T := by
      intro t ht
      rcases (htr1 t).mp ht with h | rfl
      · exact htin t h
      · exact hqT
    obtain ⟨hwfF, htrF, hvalsF⟩ := ih _ hQT' hwf1 htin'
    refine ⟨hwfF, ?_, ?_⟩
    · intro t
      rw [htrF t, htr1 t, List.mem_cons]
      exact or_assoc
    · intro x
      rw [hvalsF x, hvals1 x]
      simp only [List.mem_cons]
      constructor
      · rintro ((h | hxa | hxb) | ⟨q, hq, hp⟩)
        · exact Or.inl h
        · exact Or.inr ⟨(a, b, w), Or.inl rfl, Or.inl hxa⟩
        · exact Or.inr ⟨(a, b, w), Or.inl rfl, Or.inr hxb⟩
        · exact Or.inr ⟨q, Or.inr hq, hp⟩
      · rintro (h | ⟨q, (rfl | hq), hp⟩)
        · exact Or.inl (Or.inl h)
        · rcases hp with rfl | rfl
          · exact Or.inl (Or.inr (Or.inl rfl))
          · exact Or.inl (Or.inr (Or.inr rfl))
        · exact Or.inr ⟨q, hq, hp⟩

/-! ### C1 -/

/-- Counterexample to C1 as stated: a graph holding the single isolated
vertex `7` (no edges) copies to a graph with an empty vertex set — the
copy walk only re-inserts edges, so a vertex with no incident edge records
is dropped, not preserved. -/
theorem C1_counterexample :
    vals (assignCopy false false natEq (emptyGraph : Graph Nat)
      (addVertex natEq (emptyGraph : Graph Nat) 7).2) = [] ∧
    vals (addVertex natEq (emptyGraph : Graph Nat) 7).2 = [7] := by
  decide

/-- C1 as amended: for every well-formed graph (mirror-consistent when
undirected, zero stored weights when unweighted), copy assignment (and hence
copy construction, which delegates to it) produces a graph whose edge set
under (source value, destination value, weight) is exactly the source's, and
whose vertex set is exactly the set of values incident to at least one edge
record — vertices with no incident edge records are dropped. -/
theorem C1_copy_roundtrip {D W : Bool} {veq : V → V → Bool}
    (heq : ∀ x y, veq x y = true ↔ x = y) {src : Graph V} (hwf : WF src)
    (hmir : D = false → Mirrored src)
    (hw0 : W = false → ∀ t ∈ triples src, t.2.2 = 0) (g : Graph V) :
    (∀ t, t ∈ triples (assignCopy D W veq g src) ↔ t ∈ triples src) ∧
    (∀ x, x ∈ vals (assignCopy D W veq g src) ↔
      ∃ t ∈ triples src, x = t.1 ∨ x = t.2.1) := by
  rw [assignCopy_eq_foldl]
  have hempty_tr : triples (emptyGraph : Graph V) = [] := rfl
  have hempty_vals : vals (emptyGraph : Graph V) = [] := rfl
  rcases D with _ | _
  · have hmirv : ∀ x y u, (x, y, u) ∈ triples src → (y, x, u) ∈ triples src :=
      fun x y u h => mirrored_triples hwf (hmir rfl) h
    have huniq : ∀ x y u u',
        ((x, y, u) ∈ triples src ∨ (y, x, u) ∈ triples src) →
        ((x, y, u') ∈ triples src ∨ (y, x, u') ∈ triples src) → u = u' := by
      intro x y u u' h1 h2
      have h1' : (x, y, u) ∈ triples src := by
        rcases h1 with h | h
        · exact h
        · exact hmirv _ _ _ h
      have h2' : (x, y, u') ∈ triples src := by
        rcases h2 with h | h
        · exact h
        · exact hmirv _ _ _ h
      exact triples_pair_unique hwf h1' h2'
    obtain ⟨-, htr, hvals⟩ := foldU_spec heq (triples src) huniq hw0 (triples src)
      emptyGraph (fun q hq => hq) WF_empty
      (by rw [hempty_tr]; simp) (by rw [hempty_tr]; simp)
    constructor
    · intro t
      rw [htr t, hempty_tr]
      simp only [List.not_mem_nil, false_or]
      constructor
      · rintro ⟨q, hq, (rfl | rfl)⟩
        · exact hq
        · exact hmirv q.1 q.2.1 q.2.2 hq
      · intro ht
        exact ⟨t, ht, Or.inl rfl⟩
    · intro x
      rw [hvals x, hempty_vals]
      simp only [List.not_mem_nil, false_or]
  · have huniq : ∀ x y u u', (x, y, u) ∈ triples src → (x, y, u') ∈ triples src →
        u = u' := fun x y u u' => triples_pair_unique hwf
    obtain ⟨-, htr, hvals⟩ := foldD_spec heq (triples src) huniq hw0 (triples src)
      emptyGraph (fun q hq => hq) WF_empty (by rw [hempty_tr]; simp)
    constructor
    · intro t
      rw [htr t, hempty_tr]
      simp
    · intro x
      rw [hvals x, hempty_vals]
      simp only [List.not_mem_nil, false_or]

theorem gC_mirrored : Mirrored gC := by
  unfold Mirrored
  decide

/-- Witness for C1's amended statement: copying the fixture `gC` (the single
undirected weighted edge `1 – 2`) over a non-empty destination. -/
theorem C1_copy_roundtrip_witness :
    (WF gC ∧ (false = false → Mirrored gC) ∧
      (true = false → ∀ t ∈ triples gC, t.2.2 = 0)) ∧
    ((∀ t, t ∈ triples (assignCopy false true natEq gFive gC) ↔ t ∈ triples gC) ∧
      (∀ x, x ∈ vals (assignCopy false true natEq gFive gC) ↔
        ∃ t ∈ triples gC, x = t.1 ∨ x = t.2.1)) :=
  ⟨⟨gC_WF, fun _ => gC_mirrored, fun h => Bool.noConfusion h⟩,
   C1_copy_roundtrip natEq_iff gC_WF (fun _ => gC_mirrored) (fun h => Bool.noConfusion h)
     gFive⟩

end jvn
